import Mathlib

/-!
Verification of the dated-record insertion engine of this repository.

The repository consists of many Python script variants that insert candidate
note records into an ordered ledger of dated rows.  Each relevant function is
shallowly embedded below as an executable Lean definition, translated from the
Python source: dates are modelled as proleptic-Gregorian calendar triples
together with their rata-die day number, ledgers as lists, worksheet mutation
as list insertion, and Python exceptions as `Except` values.
-/

set_option maxHeartbeats 1000000

/-- A calendar date, as a year/month/day triple (proleptic Gregorian). -/
structure Dt where
  y : Nat
  m : Nat
  d : Nat
deriving DecidableEq, Repr

instance : Inhabited Dt := ⟨⟨1970, 1, 1⟩⟩

/-- Day number of a calendar date, with day 0 = 1970-01-01 (rata-die style,
the standard civil-from-days correspondence used by Python `datetime`). -/
def daysFromCivil (dt : Dt) : Int :=
  let y : Int := if dt.m ≤ 2 then (dt.y : Int) - 1 else (dt.y : Int)
  let era : Int := y.fdiv 400
  let yoe : Int := y - era * 400
  let mp : Int := if 2 < dt.m then (dt.m : Int) - 3 else (dt.m : Int) + 9
  let doy : Int := (153 * mp + 2).fdiv 5 + (dt.d : Int) - 1
  let doe : Int := yoe * 365 + yoe.fdiv 4 - yoe.fdiv 100 + doy
  era * 146097 + doe - 719468

/-- Inverse of `daysFromCivil`: the calendar date of a day number. -/
def civilFromDays (z0 : Int) : Dt :=
  let z : Int := z0 + 719468
  let era : Int := z.fdiv 146097
  let doe : Int := z - era * 146097
  let yoe : Int := (doe - doe.fdiv 1460 + doe.fdiv 36524 - doe.fdiv 146096).fdiv 365
  let y : Int := yoe + era * 400
  let doy : Int := doe - (365 * yoe + yoe.fdiv 4 - yoe.fdiv 100)
  let mp : Int := (5 * doy + 2).fdiv 153
  let d : Int := doy - (153 * mp + 2).fdiv 5 + 1
  let m : Int := if mp < 10 then mp + 3 else mp - 9
  ⟨(if m ≤ 2 then y + 1 else y).toNat, m.toNat, d.toNat⟩

/-- Short form: day number of the calendar date `y-m-d`. -/
def dcv (y m d : Nat) : Int := daysFromCivil ⟨y, m, d⟩

/-! ## apt2ny.py, `pick_insertion_date` (claim C4)

Dates are handled as day numbers (`Int`); a missing or unparseable
`Note Date` cell is `none`, mirroring pandas `NaT` after
`to_datetime(..., errors="coerce")`.  Sorting models `pandas.sort_values`
on the dropna-ed series. -/

/-- Sort a list of day numbers ascending (model of `sort_values` on a
series of valid dates). -/
def sortDays (l : List Int) : List Int :=
  List.insertionSort (fun a b => a ≤ b) l

/-- Translation of `pick_insertion_date(case_block, queue_date)` from
apt2ny.py.  `dates` is the `Note Date` column of the case block, `queue`
the Queue In Date, `today` the value of `datetime.today()`.

Source behaviour: if the queue date is missing, return today; otherwise
take the dates inside the trailing 90-day window and return the element at
position `len // 2` of the sorted window; otherwise the code computes
`queue_date - timedelta(days=45)` and logs it but never returns it, and
instead returns the element at position `len // 2` of all sorted dates,
falling back to today when the case has no dates at all. -/
def windowDates (dates : List (Option Int)) (q : Int) : List Int :=
  sortDays ((dates.filterMap id).filter (fun d => decide (q - 90 ≤ d) && decide (d ≤ q)))

def pickInsertionDate (dates : List (Option Int)) (queue : Option Int) (today : Int) : Int :=
  match queue with
  | none => today
  | some q =>
    let valid : List Int := windowDates dates q
    if valid.isEmpty then
      let allDates : List Int := sortDays (dates.filterMap id)
      if allDates.isEmpty then today
      else allDates.getD (allDates.length / 2) 0
    else valid.getD (valid.length / 2) 0

/-! ## new9gem.py, inherited styles for an inserted row (claim C5) -/

/-- The four style components stored per cell by new9gem.py
(`font`, `fill`, `border`, `alignment`), each possibly absent.  The
attribute payloads themselves are opaque to the engine and modelled as
natural numbers. -/
structure CellStyle where
  font : Option Nat
  fill : Option Nat
  border : Option Nat
  alignment : Option Nat
deriving DecidableEq, Repr

/-- The all-`None` style dictionary new9gem.py uses when there is nothing
to inherit. -/
def emptyStyle : CellStyle := ⟨none, none, none, none⟩

instance : Inhabited CellStyle := ⟨emptyStyle⟩

/-- Translation of new9gem.py lines 271-282: the style row of a freshly
inserted entry is a deep copy of the inherited style row, after which only
the `fill` component of the `Note` column is replaced by the highlight
fill.  When the note column index is out of range the code logs a warning
and skips the highlight, which `List.set` models exactly. -/
def new9gemInsertedStyles (inherited : List CellStyle) (noteCol : Nat) (hl : Nat) :
    List CellStyle :=
  inherited.set noteCol { inherited.getD noteCol emptyStyle with fill := some hl }

/-! ## ap1log.py, `insert_notes` (claims C2 and C8)

One worksheet row of the Note Activity sheet, 0-based (sheet row = index
+ 2).  `caseId` is the Case column, `noteDate` the parsed Note Date (none
when missing or unparseable, like pandas NaT), `inserted` marks rows
created by the engine (original rows carry `false`). -/
structure Entry where
  caseId : Option Nat
  noteDate : Option Int
  note : String
  inserted : Bool
deriving DecidableEq, Repr

instance : Inhabited Entry := ⟨⟨none, none, "", false⟩⟩

/-- An all-empty worksheet row (produced when ap1log.py writes one row
past the end of the sheet, leaving a gap). -/
def blankRow : Entry := ⟨none, none, "", false⟩

/-- The `(row, Note Date)` pairs of the rows of one case, in sheet order,
carrying the running 0-based row index (ap1log.py line 129-133). -/
def caseRowsAux (c : Nat) : List Entry → Nat → List (Nat × Option Int)
  | [], _ => []
  | e :: rest, i =>
    if e.caseId = some c then (i, e.noteDate) :: caseRowsAux c rest (i + 1)
    else caseRowsAux c rest (i + 1)

def ap1logCaseRows (l : List Entry) (c : Nat) : List (Nat × Option Int) :=
  caseRowsAux c l 0

/-- Model of `pd.to_datetime(note_date) >= target_date` under the
try/except of ap1log.py lines 143-149: a missing or unparseable date is
never at-or-after the target. -/
def dateAtLeast (d : Option Int) (target : Int) : Bool :=
  match d with
  | some x => decide (target ≤ x)
  | none => false

/-- Translation of ap1log.py lines 128-149: the default insertion row is
one past the last row of the case block (with the sentinel
`(max_row + 1, None)` when the case has no rows), overridden by the first
case row whose date is at or after the target. -/
def ap1logInsertAt (l : List Entry) (c : Nat) (target : Int) : Nat :=
  let rows0 := ap1logCaseRows l c
  let rows := if rows0.isEmpty then [(l.length, (none : Option Int))] else rows0
  match rows.find? (fun p => dateAtLeast p.2 target) with
  | some p => p.1
  | none => (rows.getLast?.getD (0, none)).1 + 1

/-- The row ap1log.py writes for a candidate (lines 154-159): Case from
the candidate, Note Date set to the computed target date. -/
def newNoteRow (c : Nat) (target : Int) (note : String) : Entry :=
  ⟨some c, some target, note, true⟩

/-- Row insertion in worksheet coordinates: an index of at most the
current length is an ordinary `insert_rows`; the index `length + 1`
(which ap1log.py produces for an absent case) writes one row past the
end, materialising a blank gap row. -/
def insertRowAt (l : List Entry) (i : Nat) (e : Entry) : List Entry :=
  if i ≤ l.length then l.insertIdx i e else l ++ [blankRow, e]

/-- Translation of the per-case record loop of ap1log.py lines 138-159:
`case_rows` (and hence the insertion row) is computed from the state of
the sheet before any of this case's insertions and reused, stale, for
every record of the case. -/
def ap1logInsertCase (l : List Entry) (c : Nat) (q : Int) (recs : List String) : List Entry :=
  let target := q - 45
  let ins := ap1logInsertAt l c target
  recs.foldl (fun acc note => insertRowAt acc ins (newNoteRow c target note)) l

/-- One case of the batch: case number, optional Queue In Date, candidate
records sampled for the case. -/
structure CaseBatch where
  caseNo : Nat
  qDate : Option Int
  recs : List String
deriving DecidableEq, Repr

/-- Translation of the per-case loop of ap1log.py lines 81-159: a case
without a Queue In Date is skipped with a warning (counted here), every
other case is processed in order. -/
def ap1logProcess : List Entry → List CaseBatch → List Entry × Nat
  | l, [] => (l, 0)
  | l, cb :: rest =>
    match cb.qDate with
    | none =>
      let r := ap1logProcess l rest
      (r.1, r.2 + 1)
    | some q => ap1logProcess (ap1logInsertCase l cb.caseNo q cb.recs) rest

/-- Written from the amended claim wording: the 0-based position of the
first entry of the case block whose date is at or after the cutoff. -/
def specFirstEligible (c : Nat) (target : Int) : List Entry → Nat → Option Nat
  | [], _ => none
  | e :: rest, i =>
    if decide (e.caseId = some c) && dateAtLeast e.noteDate target then some i
    else specFirstEligible c target rest (i + 1)

/-- Written from the amended claim wording: the 0-based position of the
last entry of the case block. -/
def specLastGroupIdx (c : Nat) : List Entry → Nat → Option Nat
  | [], _ => none
  | e :: rest, i =>
    match specLastGroupIdx c rest (i + 1) with
    | some j => some j
    | none => if e.caseId = some c then some i else none

/-- Written from the amended claim wording: insert before the first case
entry dated at or after the cutoff; if none exists, insert right after
the last entry of the case; if the case is absent, use `length + 1` (one
past the sheet end, leaving a blank gap row). -/
def specInsertIdx (l : List Entry) (c : Nat) (target : Int) : Nat :=
  match specFirstEligible c target l 0 with
  | some i => i
  | none =>
    match specLastGroupIdx c l 0 with
    | some i => i + 1
    | none => l.length + 1





/-! ## Date parsers of new9gem.py and new10.py (claim C7)

A raw cell value is a native datetime, a number, text, or None.  Python
exceptions are modelled with `Except`: a primitive that can raise returns
`Except.error`, and each try/except of the source is an explicit match on
that result. -/
inductive PyVal where
  | pynone : PyVal
  | pydate : Dt → PyVal
  | pynum : Int → PyVal
  | pystr : String → PyVal
deriving DecidableEq, Repr

deriving instance DecidableEq for Except

/-- Python truthiness of a cell value (`if not cell_value`). -/
def pyFalsy : PyVal → Bool
  | .pynone => true
  | .pynum n => decide (n = 0)
  | .pystr s => decide (s = "")
  | .pydate _ => false

/-- Python `str(...)` of a cell value, for the branches the parsers can
reach (datetimes are intercepted earlier, so their rendering is never
consulted). -/
def pyStr : PyVal → String
  | .pynone => "None"
  | .pydate _ => "datetime"
  | .pynum n => toString n
  | .pystr s => s

/-- Whitespace stripped by Python `str.strip()`. -/
def isPyWS (c : Char) : Bool :=
  c = ' ' || c = '\t' || c = '\n' || c = '\r'

def stripChars (cs : List Char) : List Char :=
  ((cs.dropWhile isPyWS).reverse.dropWhile isPyWS).reverse

/-- Split a character list on a separator, keeping empty fields, like
the separator matching done by `strptime` format literals. -/
def splitOnChar (sep : Char) : List Char → List (List Char)
  | [] => [[]]
  | c :: rest =>
    let r := splitOnChar sep rest
    if c = sep then [] :: r
    else
      match r with
      | [] => [[c]]
      | g :: gs => (c :: g) :: gs

/-- Numeric value of a digit string. -/
def digitsVal (cs : List Char) : Nat :=
  cs.foldl (fun a c => a * 10 + (c.toNat - 48)) 0

/-- A field of one or two digits in a closed range, as matched by the
strptime directives for months and days. -/
def pField2 (cs : List Char) (lo hi : Nat) : Except String Nat :=
  if cs.length ≥ 1 ∧ cs.length ≤ 2 ∧ cs.all Char.isDigit then
    let v := digitsVal cs
    if lo ≤ v ∧ v ≤ hi then .ok v else .error ("ValueError")
  else .error ("ValueError")

/-- The strptime directive for a four-digit year. -/
def pYear4 (cs : List Char) : Except String Nat :=
  if cs.length = 4 ∧ cs.all Char.isDigit then .ok (digitsVal cs) else .error ("ValueError")

/-- The strptime directive for a two-digit year, with the POSIX century
pivot (00-68 means 20xx, 69-99 means 19xx). -/
def pYear2 (cs : List Char) : Except String Nat :=
  if cs.length = 2 ∧ cs.all Char.isDigit then
    let v := digitsVal cs
    .ok (if v ≤ 68 then 2000 + v else 1900 + v)
  else .error ("ValueError")

/-- Whether a year is a Gregorian leap year. -/
def isLeap (y : Nat) : Bool :=
  (decide (y % 4 = 0) && !decide (y % 100 = 0)) || decide (y % 400 = 0)

def daysInMonth (y m : Nat) : Nat :=
  if m = 2 then (if isLeap y then 29 else 28)
  else if m = 4 ∨ m = 6 ∨ m = 9 ∨ m = 11 then 30 else 31

/-- Construction of a `datetime.date`, which raises ValueError on an
out-of-range component. -/
def mkDateE (y m d : Nat) : Except String Dt :=
  if 1 ≤ y ∧ y ≤ 9999 ∧ 1 ≤ m ∧ m ≤ 12 ∧ 1 ≤ d ∧ d ≤ daysInMonth y m then .ok ⟨y, m, d⟩
  else .error ("ValueError")

/-- strptime with format m/d/Y (four-digit year). -/
def parseMDY4 (cs : List Char) : Except String Dt :=
  match splitOnChar '/' cs with
  | [ms, ds, ys] => do
    let m ← pField2 ms 1 12
    let d ← pField2 ds 1 31
    let y ← pYear4 ys
    mkDateE y m d
  | _ => .error ("ValueError")

/-- strptime with format m-d-y (two-digit year). -/
def parseMDY2dash (cs : List Char) : Except String Dt :=
  match splitOnChar '-' cs with
  | [ms, ds, ys] => do
    let m ← pField2 ms 1 12
    let d ← pField2 ds 1 31
    let y ← pYear2 ys
    mkDateE y m d
  | _ => .error ("ValueError")

/-- strptime with format Y-m-d (ISO, four-digit year). -/
def parseYMDdash (cs : List Char) : Except String Dt :=
  match splitOnChar '-' cs with
  | [ys, ms, ds] => do
    let y ← pYear4 ys
    let m ← pField2 ms 1 12
    let d ← pField2 ds 1 31
    mkDateE y m d
  | _ => .error ("ValueError")

/-- strptime with format m/d/y (two-digit year). -/
def parseMDY2slash (cs : List Char) : Except String Dt :=
  match splitOnChar '/' cs with
  | [ms, ds, ys] => do
    let m ← pField2 ms 1 12
    let d ← pField2 ds 1 31
    let y ← pYear2 ys
    mkDateE y m d
  | _ => .error ("ValueError")

/-- Ordinal of 1899-12-30, the Excel serial-date epoch used by
new9gem.py (`datetime(1899, 12, 30).toordinal()`); Python ordinals count
from 0001-01-01 as day 1, which is rata-die day number -719162. -/
def ord1899 : Int := daysFromCivil ⟨1899, 12, 30⟩ + 719163

/-- Python `datetime.fromordinal`, which raises for ordinals outside the
supported calendar range. -/
def pyFromordinal (k : Int) : Except String Dt :=
  if 1 ≤ k ∧ k ≤ 3652059 then .ok (civilFromDays (k - 719163)) else .error ("ValueError")

/-- The format loop of new9gem.py lines 39-43: each ValueError is caught
and the next format is tried; after the loop the function returns None. -/
def parse9Formats (cs : List Char) : Option Dt :=
  match parseMDY4 cs with
  | .ok d => some d
  | .error _ =>
    match parseMDY2dash cs with
    | .ok d => some d
    | .error _ =>
      match parseYMDdash cs with
      | .ok d => some d
      | .error _ =>
        match parseMDY2slash cs with
        | .ok d => some d
        | .error _ => none

/-- Translation of `parse_note_date` from new9gem.py lines 20-45.  Falsy
values map to None; datetimes are returned directly; numbers go through
the Excel serial conversion whose exception is swallowed (falling through
to text parsing of the rendered number); text is stripped and tried
against the four formats.  Every raising primitive is inside a catch, so
the result is always `Except.ok`. -/
def parse9 (v : PyVal) : Except String (Option Dt) :=
  if pyFalsy v then .ok none
  else
    match v with
    | .pydate d => .ok (some d)
    | .pynum n =>
      match pyFromordinal (ord1899 + n) with
      | .ok d => .ok (some d)
      | .error _ => .ok (parse9Formats (stripChars (pyStr (.pynum n)).toList))
    | v2 => .ok (parse9Formats (stripChars (pyStr v2).toList))

/-- Translation of `parse_note_date` from new10.py lines 15-27: falsy
values map to None, datetimes pass through, text is tried (unstripped)
against m/d/Y then m-d-y, and any remaining failure yields None via the
bare `except Exception`. -/
def parse10 (v : PyVal) : Except String (Option Dt) :=
  if pyFalsy v then .ok none
  else
    match v with
    | .pydate d => .ok (some d)
    | v2 =>
      match parseMDY4 (pyStr v2).toList with
      | .ok d => .ok (some d)
      | .error _ =>
        match parseMDY2dash (pyStr v2).toList with
        | .ok d => .ok (some d)
        | .error _ => .ok none

/-- The value new10.py actually observes from its parser. -/
def parse10opt (v : PyVal) : Option Dt :=
  match parse10 v with
  | .ok o => o
  | .error _ => none

/-- Date comparison used by new10.py (datetime order). -/
def dtLE (a b : Dt) : Bool := decide (daysFromCivil a ≤ daysFromCivil b)

def dtLT (a b : Dt) : Bool := decide (daysFromCivil a < daysFromCivil b)

/-- Translation of the row scan of new10.py lines 91-99: among rows whose
date parses and is at or before the threshold, keep the first row
attaining the latest such date. -/
def new10BestAux (th : Dt) : List PyVal → Nat → Option (Nat × Dt) → Option (Nat × Dt)
  | [], _, best => best
  | v :: vs, i, best =>
    let best2 :=
      match parse10opt v with
      | some dv =>
        if dtLE dv th then
          match best with
          | none => some (i, dv)
          | some (j, bd) => if dtLT bd dv then some (i, dv) else some (j, bd)
        else best
      | none => best
    new10BestAux th vs (i + 1) best2

def new10BestRow (cells : List PyVal) (th : Dt) : Option (Nat × Dt) :=
  new10BestAux th cells 0 none

/-- One data row of the sheet handled by new10.py. -/
structure Row10 where
  caseV : PyVal
  dateV : PyVal
  noteV : String
  fileV : String
  idV : String
deriving DecidableEq, Repr

instance : Inhabited Row10 := ⟨⟨.pynone, .pynone, "", "", ""⟩⟩

/-- Translation of new10.py lines 101-120: if no eligible row exists the
function returns with nothing inserted; otherwise every record is
inserted at the fixed best row, copying Case and Note Date from the row
above the insertion point (the sheet header row when the best row is the
first data row). -/
def new10InsertBatch (hdrCase hdrDate : PyVal) (rows : List Row10)
    (recs : List (String × String × String)) (th : Dt) : List Row10 :=
  match new10BestRow (rows.map (fun r => r.dateV)) th with
  | none => rows
  | some (b, _) =>
    recs.foldl (fun acc cand =>
      let aboveCase := if b = 0 then hdrCase else (acc.getD (b - 1) default).caseV
      let aboveDate := if b = 0 then hdrDate else (acc.getD (b - 1) default).dateV
      acc.insertIdx b ⟨aboveCase, aboveDate, cand.1, cand.2.1, cand.2.2⟩) rows

/-! ## new6up.py, value inheritance for inserted rows (claim C1) -/

/-- The row immediately above an insertion index (new6up.py lines
122-125): nothing when inserting at the top. -/
def prevAt (l : List Entry) (idx : Nat) : Option Entry :=
  if idx = 0 then none else l.get? (idx - 1)

/-- The row new6up.py builds for a candidate: Case and Note Date copied
from the row above when there is one, otherwise left as the None values
the JSONL loader put into the record. -/
def mkInherited (p : Option Entry) (note : String) : Entry :=
  match p with
  | some e => ⟨e.caseId, e.noteDate, note, true⟩
  | none => ⟨none, none, note, true⟩

/-- One iteration of the insertion loop of new6up.py lines 116-136: pick
a random eligible index (the random draw `r` is an oracle into the
eligible list; with no eligible indices, append at the end), build the
row by inheritance from the row above, insert it, and bump every tracked
eligible index at or after the insertion point. -/
def new6upStep (st : List Entry × List Nat) (note : String) (r : Nat) :
    List Entry × List Nat :=
  let combined := st.1
  let elig := st.2
  let idx := if elig.isEmpty then combined.length else elig.getD (r % elig.length) 0
  let row := mkInherited (prevAt combined idx) note
  (combined.insertIdx idx row, elig.map (fun i => if idx ≤ i then i + 1 else i))

def new6upBatch (l : List Entry) (elig : List Nat) (recs : List (String × Nat)) :
    List Entry × List Nat :=
  recs.foldl (fun st p => new6upStep st p.1 p.2) (l, elig)

/-- The inheritance invariant on the tail of a ledger whose previous row
is `p`: every inserted row agrees with the row right above it on Case and
Note Date. -/
def InheritInvTail : Entry → List Entry → Prop
  | _, [] => True
  | p, e :: rest =>
    (e.inserted = true → e.caseId = p.caseId ∧ e.noteDate = p.noteDate) ∧ InheritInvTail e rest

/-- The inheritance invariant of claim C1: an inserted row at position 0
carries no Case and no Note Date, and an inserted row anywhere else
agrees with its immediate predecessor on both fields. -/
def InheritInv : List Entry → Prop
  | [] => True
  | e :: rest =>
    (e.inserted = true → e.caseId = none ∧ e.noteDate = none) ∧ InheritInvTail e rest

/-- A dictionary access `col_map[key]` of new9gem.py: a missing key is a
KeyError. -/
def pyDictCol (headers : List String) (key : String) : Except String Nat :=
  match headers.indexOf? key with
  | some i => .ok (i + 1)
  | none => .error ("KeyError: " ++ key)

/-- The header row shared by the sheets these scripts operate on. -/
def stdHeaders : List String :=
  ["Case", "Note Date", "Note", "File Name", "Example ID"]

/-- Translation of new9gem.py lines 254-258: the Case and Note Date
values an inserted record would inherit from the row above it.  The code
reads the Case column through `col_map["Case"]` but the Note Date column
through `col_map["Note_Date"]`, a key that the header row does not
contain. -/
def new9gemInheritPair {α : Type} (headers : List String) (prevRow : List α) (dflt : α) :
    Except String (α × α) := do
  let ci ← pyDictCol headers ("Case")
  let ni ← pyDictCol headers ("Note_Date")
  pure (prevRow.getD (ci - 1) dflt, prevRow.getD (ni - 1) dflt)

/-- The predecessor of a position inside a tail whose own predecessor is
`p`. -/
def prevAtP (p : Entry) (l : List Entry) (idx : Nat) : Option Entry :=
  if idx = 0 then some p else l.get? (idx - 1)

/-! ## new5high.py insertion loop and keepexample.py variant builder
(claim C9) -/

/-- One iteration of the insertion loop of new5high.py lines 110-129:
pick a random eligible index (oracle `r`), insert the candidate row
(whose Case and Note Date stay None in this variant), and bump the
tracked eligible indices at or after the insertion point. -/
def new5highStep (st : List Entry × List Nat) (note : String) (r : Nat) :
    List Entry × List Nat :=
  let combined := st.1
  let elig := st.2
  let idx := if elig.isEmpty then combined.length else elig.getD (r % elig.length) 0
  (combined.insertIdx idx ⟨none, none, note, true⟩,
   elig.map (fun i => if idx ≤ i then i + 1 else i))

def new5highBatch (l : List Entry) (elig : List Nat) (recs : List (String × Nat)) :
    List Entry × List Nat :=
  recs.foldl (fun st p => new5highStep st p.1 p.2) (l, elig)

/-- The comparison used by `sort_values("Note Date ")` in keepexample.py:
ascending by date with missing dates ordered last (pandas NaT handling
with the default na_position). -/
def keepRelB (a b : Entry) : Bool :=
  match a.noteDate, b.noteDate with
  | some x, some y => decide (x ≤ y)
  | some _, none => true
  | none, some _ => false
  | none, none => true

def keepRel (a b : Entry) : Prop := keepRelB a b = true

instance : DecidableRel keepRel := fun a b => inferInstanceAs (Decidable (_ = true))

/-- Translation of keepexample.py lines 49-54: the new note row is
concatenated to the case block and the whole block is re-sorted by Note
Date. -/
def keepexampleVariant (caseBlock : List Entry) (newRow : Entry) : List Entry :=
  List.insertionSort keepRel (caseBlock ++ [newRow])

/-! ## new9gem.py, multi-tier scored insertion points (claim C3)

Scores live in `WithTop Nat`: `⊤` is the `float("inf")` the code assigns
to rows with no date match. -/

/-- The interval preprocessing of new9gem.py line 79:
`sorted(list(set(target_prior_intervals)))`. -/
def new9gemIntervals (input : List Nat) : List Nat :=
  List.insertionSort (fun a b => a ≤ b) input.dedup

/-- The candidate scores of one row against each tier, in tier order,
starting from tier index `i`: a tier whose target date is after the row
date contributes no score (`⊤`); a matching tier contributes
`tier_index * 1000 + diff_days` (new9gem.py lines 196-205). -/
def tierScores (ref rd : Int) : List Nat → Nat → List (WithTop Nat)
  | [], _ => []
  | off :: rest, i =>
    (if 0 ≤ rd - (ref - off)
      then (((i * 1000 + (rd - (ref - off)).toNat : Nat) : WithTop Nat))
      else ⊤)
      :: tierScores ref rd rest (i + 1)

/-- The running-minimum loop of new9gem.py lines 196-210 over the tiers:
`best` is updated to any strictly smaller matching score, which is the
same as taking the minimum. -/
def scoreAux (ref rd : Int) : List Nat → Nat → WithTop Nat → WithTop Nat
  | [], _, best => best
  | off :: rest, i, best =>
    let diff := rd - (ref - off)
    let best2 :=
      if 0 ≤ diff then min best (((i * 1000 + diff.toNat : Nat) : WithTop Nat)) else best
    scoreAux ref rd rest (i + 1) best2

/-- The score of one row (new9gem.py lines 190-213): `⊤` for an undated
row, otherwise the minimum matching tier score (`⊤` when no tier
matches). -/
def scoreRow (intervals : List Nat) (ref : Int) (d : Option Int) : WithTop Nat :=
  match d with
  | none => ⊤
  | some rd => scoreAux ref rd intervals 0 ⊤

/-- The `(score, original row position)` pairs in sheet order
(new9gem.py line 213). -/
def pointsAux (intervals : List Nat) (ref : Int) : List (Option Int) → Nat →
    List (WithTop Nat × Nat)
  | [], _ => []
  | d :: rest, i => (scoreRow intervals ref d, i) :: pointsAux intervals ref rest (i + 1)

/-- Ranking by ascending score. -/
def scoreRel (a b : WithTop Nat × Nat) : Prop := a.1 ≤ b.1

instance : DecidableRel scoreRel := fun a b => inferInstanceAs (Decidable (a.1 ≤ b.1))

instance : IsTotal (WithTop Nat × Nat) scoreRel := ⟨fun a b => le_total a.1 b.1⟩

instance : IsTrans (WithTop Nat × Nat) scoreRel := ⟨fun _ _ _ => le_trans⟩

/-- The prioritised slot list of new9gem.py line 217: all rows, sorted by
ascending score (Python sorting is stable, as is insertion sort). -/
def scoredPoints (rows : List (Option Int)) (intervals : List Nat) (ref : Int) :
    List (WithTop Nat × Nat) :=
  List.insertionSort scoreRel (pointsAux intervals ref rows 0)

/-- The no-eligible-target report of new9gem.py line 219: the slot list
is empty or its best score is infinite. -/
def noEligible (rows : List (Option Int)) (intervals : List Nat) (ref : Int) : Bool :=
  match scoredPoints rows intervals ref with
  | [] => true
  | p :: _ => decide (p.1 = ⊤)

/-- The slots consumed by a batch of `n` candidates: the loop of
new9gem.py lines 236-242 pops the best remaining slot for each record and
stops when either runs out. -/
def consumedSlots (rows : List (Option Int)) (intervals : List Nat) (ref : Int) (n : Nat) :
    List (WithTop Nat × Nat) :=
  (scoredPoints rows intervals ref).take n

/-! ## Index bookkeeping under repeated insertion (claims C6 and C10)

Candidates are `(target, row)` pairs whose target is a position of the
pre-batch snapshot; rows are abstract.  `liveInsertOffsets` is new9gem.py
lines 234-287 (the `insertion_offsets` array, modelled as the map from an
original index to the number of earlier insertions at or before it);
`liveInsertBump` is the equivalent bookkeeping of new5high.py line 129
and new6up.py line 136, which instead rewrites the stored future indices
in place. -/

/-- Bump the stored targets at or after an insertion point (new5high.py
line 129). -/
def bumpTargets {α : Type} (k : Nat) (cs : List (Nat × α)) : List (Nat × α) :=
  cs.map (fun pc => if k ≤ pc.1 then (pc.1 + 1, pc.2) else pc)

/-- Live insertion, one candidate at a time, with the stored indices of
the remaining candidates bumped after every insertion. -/
def liveInsertBump {α : Type} : List α → List (Nat × α) → List α
  | l, [] => l
  | l, (p, c) :: rest => liveInsertBump (l.insertIdx p c) (bumpTargets p rest)
termination_by _ cs => cs.length
decreasing_by simp [bumpTargets]

/-- Live insertion driven by the offsets array of new9gem.py: each
candidate is inserted at its original index plus the recorded offset, and
the offsets at or after that original index are incremented (lines 246,
269, 285-287). -/
def liveInsertOffsets {α : Type} : List α → (Nat → Nat) → List (Nat × α) → List α
  | l, _, [] => l
  | l, offs, (p, c) :: rest =>
    liveInsertOffsets (l.insertIdx (p + offs p) c)
      (fun i => if p ≤ i then offs i + 1 else offs i) rest

/-- The candidates aimed at the head position, in batch order. -/
def blockAt {α : Type} (cs : List (Nat × α)) : List α :=
  (cs.filter (fun pc => pc.1 == 0)).map Prod.snd

/-- The remaining candidates, retargeted one position down. -/
def shiftDown {α : Type} (cs : List (Nat × α)) : List (Nat × α) :=
  (cs.filter (fun pc => pc.1 != 0)).map (fun pc => (pc.1 - 1, pc.2))

/-- The canonical result of a batch: before every snapshot row, the block
of candidates that target it, in batch order. -/
def assemble {α : Type} : List α → List (Nat × α) → List α
  | [], cs => blockAt cs
  | a :: l, cs => blockAt cs ++ a :: assemble l (shiftDown cs)

/-- Descending order on targets, for highest-index-first application. -/
def descRel {α : Type} (a b : Nat × α) : Prop := b.1 ≤ a.1

instance {α : Type} : DecidableRel (@descRel α) := fun a b => Nat.decLe b.1 a.1

instance {α : Type} : IsTotal (Nat × α) descRel := ⟨fun a b => le_total b.1 a.1⟩

instance {α : Type} : IsTrans (Nat × α) descRel :=
  ⟨fun _ _ _ h1 h2 => le_trans h2 h1⟩

/-- The order in which the snapshot strategy applies the batch: targets
descending, candidates with equal targets in reverse batch order. -/
def snapshotOrder {α : Type} (cs : List (Nat × α)) : List (Nat × α) :=
  List.insertionSort descRel cs.reverse

/-- Apply all snapshot positions highest-index-first to the pre-batch
ledger. -/
def snapshotHighestFirst {α : Type} (l : List α) (cs : List (Nat × α)) : List α :=
  (snapshotOrder cs).foldl (fun acc pc => acc.insertIdx pc.1 pc.2) l

/-- The result of running a batch through the new9gem.py offsets
bookkeeping with snapshot rows and candidate rows tagged, so that the
two kinds can be told apart in the output. -/
def taggedLive {α β : Type} (l : List α) (cs : List (Nat × β)) : List (α ⊕ β) :=
  liveInsertOffsets (l.map Sum.inl) (fun _ => 0)
    (cs.map (fun pc => (pc.1, Sum.inr pc.2)))


/-! ## Theorems -/

/-- Membership in an insertion sort, transported along its permutation. -/
theorem mem_sortDays {x : Int} {l : List Int} (h : x ∈ sortDays l) : x ∈ l :=
  (List.perm_insertionSort (fun a b => a ≤ b) l).mem_iff.mp h

/-- A getD at an in-range position is a member of the list. -/
theorem getD_mem_of_lt {α : Type} [Inhabited α] {l : List α} {i : Nat} (h : i < l.length)
    (d : α) : l.getD i d ∈ l := by
  have := List.getD_eq_getElem l d h
  rw [this]
  exact l.getElem_mem h

/-- C4: under the window-median policy of apt2ny.py, a nonempty trailing
window yields the date-order median of the window, and the returned value
is always either one of the dates of the case block or today; in
particular it is never the threshold cutoff `queue - 45`, which the code
computes and logs but does not return: on a block whose only date is 200
days before the queue date the code returns that date, not the cutoff. -/
theorem c4_window_median_fallback_skips_cutoff :
    (∀ (dates : List (Option Int)) (q today : Int),
        windowDates dates q ≠ [] →
        pickInsertionDate dates (some q) today
          = (windowDates dates q).getD ((windowDates dates q).length / 2) 0)
    ∧ (∀ (dates : List (Option Int)) (queue : Option Int) (today : Int),
        pickInsertionDate dates queue today ∈ dates.filterMap id
          ∨ pickInsertionDate dates queue today = today)
    ∧ pickInsertionDate [some 800] (some 1000) 999 = 800
    ∧ (800 : Int) ≠ 1000 - 45 := by
  refine ⟨?_, ?_, by decide, by decide⟩
  · intro dates q today h
    have hE : (windowDates dates q).isEmpty = false := by
      cases hc : (windowDates dates q) with
      | nil => exact absurd hc h
      | cons a t => rfl
    simp [pickInsertionDate, hE]
  · intro dates queue today
    cases queue with
    | none => exact Or.inr rfl
    | some q =>
      by_cases hE : (windowDates dates q).isEmpty
      · by_cases hA : (sortDays (dates.filterMap id)).isEmpty = true
        · exact Or.inr (by simp [pickInsertionDate, hE, hA])
        · refine Or.inl ?_
          have hne : (sortDays (dates.filterMap id)).length ≠ 0 := by
            intro h0
            rw [List.length_eq_zero] at h0
            rw [h0] at hA
            exact hA rfl
          have hlt : (sortDays (dates.filterMap id)).length / 2
              < (sortDays (dates.filterMap id)).length :=
            Nat.div_lt_self (Nat.pos_of_ne_zero hne) (by norm_num)
          have hpick : pickInsertionDate dates (some q) today
              = (sortDays (dates.filterMap id)).getD
                  ((sortDays (dates.filterMap id)).length / 2) 0 := by
            simp [pickInsertionDate, hE, hA]
          rw [hpick]
          exact mem_sortDays (getD_mem_of_lt hlt 0)
      · refine Or.inl ?_
        have hne : (windowDates dates q).length ≠ 0 := by
          intro h0
          rw [List.length_eq_zero] at h0
          rw [h0] at hE
          exact hE rfl
        have hlt : (windowDates dates q).length / 2 < (windowDates dates q).length :=
          Nat.div_lt_self (Nat.pos_of_ne_zero hne) (by norm_num)
        have hpick : pickInsertionDate dates (some q) today
            = (windowDates dates q).getD ((windowDates dates q).length / 2) 0 := by
          simp [pickInsertionDate, hE]
        rw [hpick]
        have hmem := getD_mem_of_lt hlt (0 : Int)
        have hmem2 : (windowDates dates q).getD ((windowDates dates q).length / 2) 0
            ∈ (dates.filterMap id).filter (fun d => decide (q - 90 ≤ d) && decide (d ≤ q)) :=
          mem_sortDays hmem
        exact List.mem_of_mem_filter hmem2

/-- Witness for C4 at concrete inputs: a three-date window picks the
middle date. -/
theorem c4_window_median_fallback_skips_cutoff_witness :
    pickInsertionDate [some 950, some 990, some 940] (some 1000) 0 = 950 :=
  (c4_window_median_fallback_skips_cutoff.1 [some 950, some 990, some 940] 1000 0
    (by decide)).trans (by decide)

/-- C5: the style row of an entry inserted by new9gem.py agrees with the
inherited style row of its predecessor at every column other than the
note column; at the note column the fill becomes the highlight marker
while font, border and alignment stay inherited. -/
theorem c5_selective_style_override :
    ∀ (inherited : List CellStyle) (noteCol hl : Nat), noteCol < inherited.length →
      (∀ j, j ≠ noteCol →
        (new9gemInsertedStyles inherited noteCol hl).get? j = inherited.get? j)
      ∧ ∃ s, (new9gemInsertedStyles inherited noteCol hl).get? noteCol = some s
          ∧ s.fill = some hl
          ∧ s.font = (inherited.getD noteCol emptyStyle).font
          ∧ s.border = (inherited.getD noteCol emptyStyle).border
          ∧ s.alignment = (inherited.getD noteCol emptyStyle).alignment := by
  intro inherited noteCol hl h
  constructor
  · intro j hj
    exact List.get?_set_ne _ _ (Ne.symm hj)
  · exact ⟨_, List.get?_set_eq_of_lt _ h, rfl, rfl, rfl, rfl⟩

/-- Witness for C5 at a concrete two-column style row. -/
theorem c5_selective_style_override_witness :
    (new9gemInsertedStyles [⟨some 1, some 2, some 3, some 4⟩, ⟨some 5, some 6, some 7, some 8⟩]
        1 99).get? 0
      = some ⟨some 1, some 2, some 3, some 4⟩
    ∧ ∃ s,
      (new9gemInsertedStyles [⟨some 1, some 2, some 3, some 4⟩, ⟨some 5, some 6, some 7, some 8⟩]
          1 99).get? 1 = some s
        ∧ s.fill = some 99 ∧ s.font = some 5 ∧ s.border = some 7 ∧ s.alignment = some 8 :=
  ⟨(c5_selective_style_override
      [⟨some 1, some 2, some 3, some 4⟩, ⟨some 5, some 6, some 7, some 8⟩] 1 99
      (by decide)).1 0 (by decide),
   (c5_selective_style_override
      [⟨some 1, some 2, some 3, some 4⟩, ⟨some 5, some 6, some 7, some 8⟩] 1 99
      (by decide)).2⟩

theorem getLast?_cons_some {α : Type} (y : α) (ys : List α) :
    ∃ z, (y :: ys).getLast? = some z := by
  induction ys generalizing y with
  | nil => exact ⟨y, rfl⟩
  | cons b bs ih =>
    rw [List.getLast?_cons_cons]
    exact ih b

theorem caseRowsAux_find_eq : ∀ (l : List Entry) (k : Nat) (c : Nat) (t : Int),
    ((caseRowsAux c l k).find? (fun p => dateAtLeast p.2 t)).map Prod.fst
      = specFirstEligible c t l k := by
  intro l
  induction l with
  | nil => intro k c t; rfl
  | cons e rest ih =>
    intro k c t
    by_cases he : e.caseId = some c
    · by_cases hd : dateAtLeast e.noteDate t
      · simp [caseRowsAux, specFirstEligible, he, hd, List.find?]
      · simp only [Bool.not_eq_true] at hd
        simp [caseRowsAux, specFirstEligible, he, hd, List.find?, ih]
    · simp [caseRowsAux, specFirstEligible, he, ih]

theorem caseRowsAux_getLast_eq : ∀ (l : List Entry) (k : Nat) (c : Nat),
    ((caseRowsAux c l k).getLast?).map Prod.fst = specLastGroupIdx c l k := by
  intro l
  induction l with
  | nil => intro k c; rfl
  | cons e rest ih =>
    intro k c
    by_cases he : e.caseId = some c
    · simp only [caseRowsAux, specLastGroupIdx, he, if_true]
      rw [← ih (k + 1) c]
      cases hr : caseRowsAux c rest (k + 1) with
      | nil => simp [he]
      | cons y ys =>
        rw [List.getLast?_cons_cons]
        obtain ⟨z, hz⟩ := getLast?_cons_some y ys
        simp [hz]
    · simp only [caseRowsAux, specLastGroupIdx, he, if_false]
      rw [ih (k + 1) c]
      cases specLastGroupIdx c rest (k + 1) <;> rfl

theorem ap1logInsertAt_eq_spec (l : List Entry) (c : Nat) (t : Int) :
    ap1logInsertAt l c t = specInsertIdx l c t := by
  unfold ap1logInsertAt specInsertIdx
  cases hrows : ap1logCaseRows l c with
  | nil =>
    have hfind : specFirstEligible c t l 0 = none := by
      rw [← caseRowsAux_find_eq l 0 c t]
      unfold ap1logCaseRows at hrows
      rw [hrows]
      rfl
    have hlast : specLastGroupIdx c l 0 = none := by
      rw [← caseRowsAux_getLast_eq l 0 c]
      unfold ap1logCaseRows at hrows
      rw [hrows]
      rfl
    simp [hfind, hlast, dateAtLeast, List.find?]
  | cons y ys =>
    have hI : (if (y :: ys).isEmpty then [(l.length, (none : Option Int))] else y :: ys)
        = y :: ys := rfl
    simp only [hrows, hI]
    have hfind : specFirstEligible c t l 0
        = ((y :: ys).find? (fun p => dateAtLeast p.2 t)).map Prod.fst := by
      rw [← caseRowsAux_find_eq l 0 c t]
      unfold ap1logCaseRows at hrows
      rw [hrows]
    have hlast : specLastGroupIdx c l 0 = ((y :: ys).getLast?).map Prod.fst := by
      rw [← caseRowsAux_getLast_eq l 0 c]
      unfold ap1logCaseRows at hrows
      rw [hrows]
    cases hf : (y :: ys).find? (fun p => dateAtLeast p.2 t) with
    | some p => simp [hf, hfind]
    | none =>
      obtain ⟨z, hz⟩ := getLast?_cons_some y ys
      simp [hf, hfind, hlast, hz]

/-- C2 counterexample: on the spec scenario ledger (case 7 rows dated
2024-01-01 and 2024-03-01, reference 2024-03-10, offset 45) the candidate
is indeed inserted before the second row, but its Note Date is the
computed cutoff 2024-01-25, not the date 2024-01-01 inherited from the
first row, so the output ledger asserted by the claim is not produced. -/
theorem c2_threshold_scenario_counterexample :
    ap1logInsertCase
        [⟨some 7, some (dcv 2024 1 1), "a", false⟩, ⟨some 7, some (dcv 2024 3 1), "b", false⟩]
        7 (dcv 2024 3 10) ["x"]
      ≠ [⟨some 7, some (dcv 2024 1 1), "a", false⟩,
         ⟨some 7, some (dcv 2024 1 1), "x", true⟩,
         ⟨some 7, some (dcv 2024 3 1), "b", false⟩]
    ∧ ((ap1logInsertCase
        [⟨some 7, some (dcv 2024 1 1), "a", false⟩, ⟨some 7, some (dcv 2024 3 1), "b", false⟩]
        7 (dcv 2024 3 10) ["x"]).getD 1 default).noteDate = some (dcv 2024 1 25) := by
  constructor
  · decide
  · decide

/-- C2 as amended: the insertion index of ap1log.py is the position of
the first case-block entry dated at or after the cutoff (reference minus
45 days), defaulting to one past the last entry of the case block, and to
one past the sheet end (leaving a blank gap row) when the case is absent;
the inserted entry carries the candidate's case number and the cutoff
itself as its Note Date, rather than inheriting the predecessor's date.
On the scenario ledger the candidate lands before the second row with
Note Date 2024-01-25 (the cutoff; the spec text miscomputes it as
2024-01-24). -/
theorem c2_threshold_policy_amended :
    (∀ (l : List Entry) (c : Nat) (t : Int), ap1logInsertAt l c t = specInsertIdx l c t)
    ∧ (∀ (l : List Entry) (c : Nat) (q : Int) (note : String),
        ap1logInsertCase l c q [note]
          = insertRowAt l (ap1logInsertAt l c (q - 45)) (newNoteRow c (q - 45) note))
    ∧ ap1logInsertCase
        [⟨some 7, some (dcv 2024 1 1), "a", false⟩, ⟨some 7, some (dcv 2024 3 1), "b", false⟩]
        7 (dcv 2024 3 10) ["x"]
      = [⟨some 7, some (dcv 2024 1 1), "a", false⟩,
         newNoteRow 7 (dcv 2024 1 25) "x",
         ⟨some 7, some (dcv 2024 3 1), "b", false⟩] := by
  refine ⟨ap1logInsertAt_eq_spec, fun l c q note => rfl, by decide⟩

theorem sublist_insertIdx_self {α : Type} : ∀ (i : Nat) (e : α) (l : List α),
    l.Sublist (l.insertIdx i e)
  | 0, e, l => by
    rw [List.insertIdx_zero]
    exact List.sublist_cons_self e l
  | i + 1, e, [] => by
    rw [List.insertIdx_succ_nil]
  | i + 1, e, a :: t => by
    rw [List.insertIdx_succ_cons]
    exact (sublist_insertIdx_self i e t).cons₂ a

theorem sublist_foldl_of_step {α β : Type} (f : List α → β → List α)
    (h : ∀ (acc : List α) (b : β), acc.Sublist (f acc b)) :
    ∀ (bs : List β) (l : List α), l.Sublist (bs.foldl f l) := by
  intro bs
  induction bs with
  | nil => exact fun l => List.Sublist.refl l
  | cons b rest ih => exact fun l => (h l b).trans (ih (f l b))

theorem new10BestAux_spec : ∀ (vs : List PyVal) (i0 : Nat) (best : Option (Nat × Dt))
    (th : Dt) (j : Nat) (d : Dt),
    new10BestAux th vs i0 best = some (j, d) →
    best = some (j, d)
      ∨ ∃ k v, vs.get? k = some v ∧ j = i0 + k ∧ parse10opt v = some d ∧ dtLE d th = true := by
  intro vs
  induction vs with
  | nil =>
    intro i0 best th j d h
    exact Or.inl h
  | cons v rest ih =>
    intro i0 best th j d h
    rw [new10BestAux] at h
    cases hv : parse10opt v with
    | none =>
      simp only [hv] at h
      rcases ih (i0 + 1) best th j d h with h2 | ⟨k, w, hk, hj, hp, hle⟩
      · exact Or.inl h2
      · exact Or.inr ⟨k + 1, w, hk, by omega, hp, hle⟩
    | some dv =>
      simp only [hv] at h
      by_cases hth : dtLE dv th = true
      · rw [if_pos hth] at h
        cases best with
        | none =>
          rcases ih (i0 + 1) (some (i0, dv)) th j d h with h2 | ⟨k, w, hk, hj, hp, hle⟩
          · rw [Option.some.injEq, Prod.mk.injEq] at h2
            exact Or.inr ⟨0, v, rfl, by omega,
              by rw [hv, h2.2], by rw [← h2.2]; exact hth⟩
          · exact Or.inr ⟨k + 1, w, hk, by omega, hp, hle⟩
        | some p =>
          rcases p with ⟨pj, pd⟩
          have hred : (match some (pj, pd) with
              | none => some (i0, dv)
              | some (j, bd) => if dtLT bd dv = true then some (i0, dv) else some (j, bd))
              = if dtLT pd dv = true then some (i0, dv) else some (pj, pd) := rfl
          rw [hred] at h
          by_cases hlt : dtLT pd dv = true
          · rw [if_pos hlt] at h
            rcases ih (i0 + 1) (some (i0, dv)) th j d h with h2 | ⟨k, w, hk, hj, hp, hle⟩
            · rw [Option.some.injEq, Prod.mk.injEq] at h2
              exact Or.inr ⟨0, v, rfl, by omega,
                by rw [hv, h2.2], by rw [← h2.2]; exact hth⟩
            · exact Or.inr ⟨k + 1, w, hk, by omega, hp, hle⟩
          · rw [if_neg hlt] at h
            rcases ih (i0 + 1) (some (pj, pd)) th j d h with h2 | ⟨k, w, hk, hj, hp, hle⟩
            · exact Or.inl h2
            · exact Or.inr ⟨k + 1, w, hk, by omega, hp, hle⟩
      · rw [if_neg hth] at h
        rcases ih (i0 + 1) best th j d h with h2 | ⟨k, w, hk, hj, hp, hle⟩
        · exact Or.inl h2
        · exact Or.inr ⟨k + 1, w, hk, by omega, hp, hle⟩

/-- C7: both date parsers are total and never propagate an exception:
every input yields `Except.ok` with either a parsed date or None.  In
new10.py, the chosen anchor row always carries a parseable date at or
before the threshold, so rows with unparseable dates are never anchors;
and the insertion phase only ever adds rows, keeping every original row
(in order) in the output ledger. -/
theorem c7_date_parser_total_and_safe :
    (∀ v : PyVal, ∃ o, parse9 v = .ok o)
    ∧ (∀ v : PyVal, ∃ o, parse10 v = .ok o)
    ∧ (∀ (cells : List PyVal) (th : Dt) (j : Nat) (d : Dt),
        new10BestRow cells th = some (j, d) →
        ∃ v, cells.get? j = some v ∧ parse10opt v = some d ∧ dtLE d th = true)
    ∧ (∀ (hdrCase hdrDate : PyVal) (rows : List Row10)
        (recs : List (String × String × String)) (th : Dt),
        rows.Sublist (new10InsertBatch hdrCase hdrDate rows recs th)) := by
  refine ⟨?_, ?_, ?_, ?_⟩
  · intro v
    cases v with
    | pynone => exact ⟨none, rfl⟩
    | pydate d => exact ⟨some d, rfl⟩
    | pynum n =>
      simp only [parse9]
      split
      · exact ⟨none, rfl⟩
      · cases h : pyFromordinal (ord1899 + n) with
        | ok d => exact ⟨some d, by simp [h]⟩
        | error e =>
          exact ⟨parse9Formats (stripChars (pyStr (.pynum n)).toList), by simp [h]⟩
    | pystr s =>
      simp only [parse9]
      split
      · exact ⟨none, rfl⟩
      · exact ⟨_, rfl⟩
  · intro v
    cases v with
    | pynone => exact ⟨none, rfl⟩
    | pydate d => exact ⟨some d, rfl⟩
    | pynum n =>
      simp only [parse10]
      split
      · exact ⟨none, rfl⟩
      · cases h : parseMDY4 (pyStr (.pynum n)).toList with
        | ok d => exact ⟨some d, by simp [h]⟩
        | error e =>
          cases h2 : parseMDY2dash (pyStr (.pynum n)).toList with
          | ok d => exact ⟨some d, by simp [h, h2]⟩
          | error e2 => exact ⟨none, by simp [h, h2]⟩
    | pystr s =>
      simp only [parse10]
      split
      · exact ⟨none, rfl⟩
      · cases h : parseMDY4 (pyStr (.pystr s)).toList with
        | ok d => exact ⟨some d, by simp [h]⟩
        | error e =>
          cases h2 : parseMDY2dash (pyStr (.pystr s)).toList with
          | ok d => exact ⟨some d, by simp [h, h2]⟩
          | error e2 => exact ⟨none, by simp [h, h2]⟩
  · intro cells th j d h
    rcases new10BestAux_spec cells 0 none th j d h with h2 | ⟨k, v, hk, hj, hp, hle⟩
    · exact absurd h2 (by simp)
    · exact ⟨v, by rw [hj, Nat.zero_add]; exact hk, hp, hle⟩
  · intro hdrCase hdrDate rows recs th
    unfold new10InsertBatch
    cases new10BestRow (rows.map (fun r => r.dateV)) th with
    | none => exact List.Sublist.refl rows
    | some p =>
      exact sublist_foldl_of_step _ (fun acc cand => sublist_insertIdx_self p.1 _ acc) recs rows

/-- Witness for C7 at a concrete ledger: the anchor chosen by new10.py on
a one-row sheet dated 01/05/2024 carries that parsed date. -/
theorem c7_date_parser_total_and_safe_witness :
    ∃ v, [PyVal.pystr ("01/05/2024")].get? 0 = some v
      ∧ parse10opt v = some ⟨2024, 1, 5⟩
      ∧ dtLE ⟨2024, 1, 5⟩ ⟨2024, 6, 1⟩ = true :=
  c7_date_parser_total_and_safe.2.2.1 [PyVal.pystr ("01/05/2024")] ⟨2024, 6, 1⟩ 0
    ⟨2024, 1, 5⟩ (by decide)

/-- C8: the batch survives an unplaceable case.  In ap1log.py, a case
without a Queue In Date is skipped (one more warning is recorded) and the
final ledger is exactly the one obtained by processing all other cases;
in new10.py, when the selector finds no eligible row the function returns
with the ledger unchanged rather than raising. -/
theorem c8_skip_not_crash :
    (∀ (l : List Entry) (pre : List CaseBatch) (cb : CaseBatch) (post : List CaseBatch),
        cb.qDate = none →
        ap1logProcess l (pre ++ cb :: post)
          = ((ap1logProcess l (pre ++ post)).1, (ap1logProcess l (pre ++ post)).2 + 1))
    ∧ (∀ (hdrCase hdrDate : PyVal) (rows : List Row10)
        (recs : List (String × String × String)) (th : Dt),
        new10BestRow (rows.map (fun r => r.dateV)) th = none →
        new10InsertBatch hdrCase hdrDate rows recs th = rows) := by
  constructor
  · intro l pre cb post hq
    induction pre generalizing l with
    | nil =>
      simp only [List.nil_append, ap1logProcess, hq]
    | cons p rest ih =>
      cases hp : p.qDate with
      | none =>
        simp only [List.cons_append, List.append_eq, ap1logProcess, hp]
        rw [ih l]
      | some q =>
        simp only [List.cons_append, List.append_eq, ap1logProcess, hp]
        rw [ih (ap1logInsertCase l p.caseNo q p.recs)]
  · intro hdrCase hdrDate rows recs th h
    unfold new10InsertBatch
    rw [h]

/-- Witness for C8 at a concrete batch: the second case has no Queue In
Date, is counted as skipped, and leaves the result of the first case
untouched. -/
theorem c8_skip_not_crash_witness :
    ap1logProcess [] [⟨1, some 100, ["r1"]⟩, ⟨2, none, ["r2"]⟩]
      = ((ap1logProcess [] [⟨1, some 100, ["r1"]⟩]).1,
         (ap1logProcess [] [⟨1, some 100, ["r1"]⟩]).2 + 1) :=
  c8_skip_not_crash.1 [] [⟨1, some 100, ["r1"]⟩] ⟨2, none, ["r2"]⟩ [] rfl

theorem invTail_congr (p p2 : Entry) (l : List Entry)
    (hc : p2.caseId = p.caseId) (hd : p2.noteDate = p.noteDate)
    (h : InheritInvTail p l) : InheritInvTail p2 l := by
  cases l with
  | nil => exact True.intro
  | cons e rest =>
    exact ⟨fun hi => by rw [hc, hd]; exact h.1 hi, h.2⟩

theorem invTail_of_inv (r : Entry) (l : List Entry)
    (hrc : r.caseId = none) (hrd : r.noteDate = none) (h : InheritInv l) :
    InheritInvTail r l := by
  cases l with
  | nil => exact True.intro
  | cons e rest =>
    exact ⟨fun hi => by rw [hrc, hrd]; exact h.1 hi, h.2⟩

theorem invTail_insertIdx : ∀ (idx : Nat) (l : List Entry) (p : Entry) (note : String),
    InheritInvTail p l → idx ≤ l.length →
    InheritInvTail p (l.insertIdx idx (mkInherited (prevAtP p l idx) note)) := by
  intro idx
  induction idx with
  | zero =>
    intro l p note h _
    rw [List.insertIdx_zero]
    exact ⟨fun _ => ⟨rfl, rfl⟩, invTail_congr p _ l rfl rfl h⟩
  | succ n ih =>
    intro l p note h hle
    cases l with
    | nil => exact absurd hle (by simp)
    | cons b rest =>
      have hprev : prevAtP p (b :: rest) (n + 1) = prevAtP b rest n := by
        cases n with
        | zero => rfl
        | succ m => rfl
      rw [hprev, List.insertIdx_succ_cons]
      exact ⟨h.1, ih rest b note h.2 (by simpa using hle)⟩

theorem inv_insertIdx (l : List Entry) (idx : Nat) (note : String)
    (h : InheritInv l) (hle : idx ≤ l.length) :
    InheritInv (l.insertIdx idx (mkInherited (prevAt l idx) note)) := by
  cases idx with
  | zero =>
    rw [List.insertIdx_zero]
    exact ⟨fun _ => ⟨rfl, rfl⟩, invTail_of_inv _ l rfl rfl h⟩
  | succ n =>
    cases l with
    | nil => exact absurd hle (by simp)
    | cons b rest =>
      have hprev : prevAt (b :: rest) (n + 1) = prevAtP b rest n := by
        cases n with
        | zero => rfl
        | succ m => rfl
      rw [hprev, List.insertIdx_succ_cons]
      exact ⟨h.1, invTail_insertIdx n rest b note h.2 (by simpa using hle)⟩

theorem new6upStep_inv (l : List Entry) (elig : List Nat) (note : String) (r : Nat)
    (h : InheritInv l) (helig : ∀ i ∈ elig, i ≤ l.length) :
    InheritInv (new6upStep (l, elig) note r).1
    ∧ ∀ i ∈ (new6upStep (l, elig) note r).2, i ≤ (new6upStep (l, elig) note r).1.length := by
  have hle : (if elig.isEmpty then l.length else elig.getD (r % elig.length) 0) ≤ l.length := by
    by_cases he : elig.isEmpty
    · rw [if_pos he]
    · rw [if_neg he]
      have hne : elig ≠ [] := by
        intro h0
        rw [h0] at he
        exact he rfl
      have hpos : 0 < elig.length := List.length_pos.mpr hne
      exact helig _ (getD_mem_of_lt (Nat.mod_lt r hpos) 0)
  refine ⟨inv_insertIdx l _ note h hle, ?_⟩
  intro i hi
  simp only [new6upStep] at hi ⊢
  rw [List.mem_map] at hi
  obtain ⟨i0, hi0, rfl⟩ := hi
  rw [List.length_insertIdx _ _ hle]
  have := helig i0 hi0
  by_cases hc : (if elig.isEmpty then l.length else elig.getD (r % elig.length) 0) ≤ i0
  · rw [if_pos hc]; omega
  · rw [if_neg hc]; omega

theorem new6upBatch_inv : ∀ (recs : List (String × Nat)) (l : List Entry) (elig : List Nat),
    InheritInv l → (∀ i ∈ elig, i ≤ l.length) →
    InheritInv (new6upBatch l elig recs).1 := by
  intro recs
  induction recs with
  | nil => intro l elig h _; exact h
  | cons pr rest ih =>
    intro l elig h helig
    have hstep : new6upBatch l elig (pr :: rest)
        = new6upBatch (new6upStep (l, elig) pr.1 pr.2).1 (new6upStep (l, elig) pr.1 pr.2).2
            rest := rfl
    rw [hstep]
    obtain ⟨h1, h2⟩ := new6upStep_inv l elig pr.1 pr.2 h helig
    exact ih _ _ h1 h2

/-- C1: in new6up.py the invariant holds: after any batch, every
inserted row at a positive position carries exactly the Case and Note
Date of the row directly above it in the output, and an inserted row at
position 0 carries neither.  In new9gem.py, the corresponding copy step
reads the column map with the key Note_Date although the header is
Note Date, so on a standard sheet the step raises KeyError instead of
copying. -/
theorem c1_inheritance_invariant_and_keyerror :
    (∀ (recs : List (String × Nat)) (l : List Entry) (elig : List Nat),
        InheritInv l → (∀ i ∈ elig, i ≤ l.length) →
        InheritInv (new6upBatch l elig recs).1)
    ∧ (∀ (prevRow : List Int) (dflt : Int),
        new9gemInheritPair stdHeaders prevRow dflt = .error ("KeyError: Note_Date")) := by
  exact ⟨new6upBatch_inv, fun prevRow dflt => rfl⟩

/-- Witness for C1: one candidate inserted below the only original row of
a one-row ledger keeps the invariant, and the new9gem.py copy step fails
on a concrete predecessor row. -/
theorem c1_inheritance_invariant_and_keyerror_witness :
    InheritInv (new6upBatch [⟨some 3, some 5, "o", false⟩] [1] [("n", 0)]).1
    ∧ new9gemInheritPair stdHeaders ([7, 8, 9, 10, 11] : List Int) 0
        = .error ("KeyError: Note_Date") :=
  ⟨c1_inheritance_invariant_and_keyerror.1 [("n", 0)] [⟨some 3, some 5, "o", false⟩] [1]
      ⟨fun hx => (nomatch hx), True.intro⟩
      (fun i hi => by rw [List.mem_singleton] at hi; subst hi; decide),
   c1_inheritance_invariant_and_keyerror.2 ([7, 8, 9, 10, 11] : List Int) 0⟩

/-- C9 counterexample: keepexample.py builds the variant ledger by
appending the new note and re-sorting the whole block by Note Date, so a
pre-existing pair of rows stored out of date order (B dated day 10 before
A dated day 5) comes out reordered (A before B). -/
theorem c9_order_preservation_counterexample :
    keepexampleVariant
        [⟨some 1, some 10, "B", false⟩, ⟨some 1, some 5, "A", false⟩]
        ⟨some 1, some 7, "N", true⟩
      = [⟨some 1, some 5, "A", false⟩, ⟨some 1, some 7, "N", true⟩,
         ⟨some 1, some 10, "B", false⟩]
    ∧ (⟨some 1, some 10, "B", false⟩ : Entry) ≠ ⟨some 1, some 5, "A", false⟩ := by
  constructor
  · decide
  · decide

/-- C9 as amended: the index-insertion engines only add rows, so every
pre-existing row survives in its original relative order (the input is a
sublist of the output); keepexample.py keeps every pre-existing row as
well, but only as a permutation, because its concat-and-sort step orders
the block by date. -/
theorem c9_order_preservation_amended :
    (∀ (l : List Entry) (elig : List Nat) (recs : List (String × Nat)),
        l.Sublist (new5highBatch l elig recs).1)
    ∧ (∀ (caseBlock : List Entry) (newRow : Entry),
        (keepexampleVariant caseBlock newRow).Perm (caseBlock ++ [newRow])) := by
  constructor
  · intro l elig recs
    induction recs generalizing l elig with
    | nil => exact List.Sublist.refl l
    | cons p rest ih =>
      have hstep : new5highBatch l elig (p :: rest)
          = new5highBatch (new5highStep (l, elig) p.1 p.2).1 (new5highStep (l, elig) p.1 p.2).2
              rest := rfl
      rw [hstep]
      exact (sublist_insertIdx_self _ _ l).trans (ih _ _)
  · intro caseBlock newRow
    exact List.perm_insertionSort keepRel (caseBlock ++ [newRow])

theorem scoreAux_eq_foldl (ref rd : Int) : ∀ (offs : List Nat) (i : Nat) (best : WithTop Nat),
    scoreAux ref rd offs i best = (tierScores ref rd offs i).foldl min best := by
  intro offs
  induction offs with
  | nil => intro i best; rfl
  | cons off rest ih =>
    intro i best
    by_cases hd : (0 : Int) ≤ rd - (ref - off)
    · simp only [scoreAux, tierScores, hd, if_true, List.foldl_cons]
      exact ih (i + 1) _
    · simp only [scoreAux, tierScores, hd, if_false, List.foldl_cons]
      rw [min_eq_left le_top]
      exact ih (i + 1) best

theorem foldl_min_le_init : ∀ (xs : List (WithTop Nat)) (b : WithTop Nat),
    xs.foldl min b ≤ b := by
  intro xs
  induction xs with
  | nil => intro b; exact le_refl b
  | cons y ys ih =>
    intro b
    exact le_trans (ih (min b y)) (min_le_left b y)

theorem foldl_min_le : ∀ (xs : List (WithTop Nat)) (b x : WithTop Nat),
    x ∈ xs → xs.foldl min b ≤ x := by
  intro xs
  induction xs with
  | nil => intro b x hx; exact absurd hx (List.not_mem_nil x)
  | cons y ys ih =>
    intro b x hx
    rcases List.mem_cons.mp hx with rfl | hx2
    · exact le_trans (foldl_min_le_init ys (min b x)) (min_le_right b x)
    · exact ih (min b y) x hx2

theorem foldl_min_eq_top_iff : ∀ (xs : List (WithTop Nat)) (b : WithTop Nat),
    xs.foldl min b = ⊤ ↔ b = ⊤ ∧ ∀ x ∈ xs, x = ⊤ := by
  intro xs
  induction xs with
  | nil => intro b; simp
  | cons y ys ih =>
    intro b
    rw [List.foldl_cons, ih (min b y)]
    constructor
    · rintro ⟨hmin, hall⟩
      rcases min_eq_top.mp hmin with ⟨hb, hy⟩
      exact ⟨hb, fun x hx => by
        rcases List.mem_cons.mp hx with rfl | hx2
        · exact hy
        · exact hall x hx2⟩
    · rintro ⟨hb, hall⟩
      refine ⟨min_eq_top.mpr ⟨hb, hall y (List.mem_cons_self y ys)⟩, ?_⟩
      exact fun x hx => hall x (List.mem_cons_of_mem y hx)

theorem foldl_min_cases : ∀ (xs : List (WithTop Nat)) (b : WithTop Nat),
    xs.foldl min b = b ∨ xs.foldl min b ∈ xs := by
  intro xs
  induction xs with
  | nil => intro b; exact Or.inl rfl
  | cons y ys ih =>
    intro b
    rw [List.foldl_cons]
    rcases ih (min b y) with h | h
    · rw [h]
      rcases min_choice b y with h2 | h2
      · exact Or.inl h2
      · exact Or.inr (by rw [h2]; exact List.mem_cons_self y ys)
    · exact Or.inr (List.mem_cons_of_mem y h)

theorem tierScores_get? (ref rd : Int) : ∀ (offs : List Nat) (i j : Nat),
    (tierScores ref rd offs i).get? j
      = (offs.get? j).map (fun (off : Nat) =>
          if 0 ≤ rd - (ref - off)
          then (((i + j) * 1000 + (rd - (ref - off)).toNat : Nat) : WithTop Nat)
          else ⊤) := by
  intro offs
  induction offs with
  | nil => intro i j; rfl
  | cons off rest ih =>
    intro i j
    cases j with
    | zero => simp [tierScores]
    | succ k =>
      simp only [tierScores, List.get?_cons_succ, List.get?]
      rw [ih (i + 1) k]
      have : i + 1 + k = i + (k + 1) := by omega
      rw [this]

theorem pointsAux_mem (intervals : List Nat) (ref : Int) :
    ∀ (rows : List (Option Int)) (i : Nat) (x : WithTop Nat × Nat),
    x ∈ pointsAux intervals ref rows i
      ↔ ∃ j d, rows.get? j = some d ∧ x = (scoreRow intervals ref d, i + j) := by
  intro rows
  induction rows with
  | nil =>
    intro i x
    simp [pointsAux]
  | cons d0 rest ih =>
    intro i x
    simp only [pointsAux, List.mem_cons, ih (i + 1)]
    constructor
    · rintro (rfl | ⟨j, d, hget, rfl⟩)
      · exact ⟨0, d0, rfl, by rw [Nat.add_zero]⟩
      · exact ⟨j + 1, d, hget, by rw [show i + 1 + j = i + (j + 1) by omega]⟩
    · rintro ⟨j, d, hget, rfl⟩
      cases j with
      | zero =>
        rw [List.get?_cons_zero, Option.some.injEq] at hget
        exact Or.inl (by rw [hget, Nat.add_zero])
      | succ k =>
        rw [List.get?_cons_succ] at hget
        exact Or.inr ⟨k, d, hget, by rw [show i + 1 + k = i + (k + 1) by omega]⟩

theorem pointsAux_map_snd (intervals : List Nat) (ref : Int) :
    ∀ (rows : List (Option Int)) (i : Nat),
    (pointsAux intervals ref rows i).map Prod.snd = List.range' i rows.length := by
  intro rows
  induction rows with
  | nil => intro i; rfl
  | cons d0 rest ih =>
    intro i
    simp only [pointsAux, List.map_cons, List.length_cons, List.range']
    rw [ih (i + 1)]

theorem scoreAux_cons (ref rd : Int) (off : Nat) (rest : List Nat) (i : Nat)
    (best : WithTop Nat) :
    scoreAux ref rd (off :: rest) i best
      = scoreAux ref rd rest (i + 1)
          (if 0 ≤ rd - (ref - off)
            then min best (((i * 1000 + (rd - (ref - off)).toNat : Nat) : WithTop Nat))
            else best) := rfl

/-- C3: under the multi-tier scored policy of new9gem.py, an undated row
scores infinity; a dated row scores at most every matching tier value
`tier_index * 1000 + diff_days`; it scores infinity exactly when no tier
target is at or before its date; any finite score is attained by some
matching tier; the slot list is the score-sorted permutation of all rows
with pairwise distinct row positions, consumed in order one slot per
candidate; no-eligible-target is reported exactly when every row scores
infinity; and with offsets [10, 20] a row dated at the tier-10 target
scores strictly below a row dated 5 days after the tier-20 target. -/
theorem c3_multi_tier_scored_policy :
    (∀ (ints : List Nat) (ref : Int), scoreRow ints ref none = ⊤)
    ∧ (∀ (ints : List Nat) (ref rd : Int) (j off : Nat),
        ints.get? j = some off → 0 ≤ rd - (ref - off) →
        scoreRow ints ref (some rd)
          ≤ ((j * 1000 + (rd - (ref - off)).toNat : Nat) : WithTop Nat))
    ∧ (∀ (ints : List Nat) (ref rd : Int),
        scoreRow ints ref (some rd) = ⊤
          ↔ ∀ j off, ints.get? j = some off → rd < ref - off)
    ∧ (∀ (ints : List Nat) (ref rd : Int) (s : Nat),
        scoreRow ints ref (some rd) = (s : WithTop Nat) →
        ∃ j off, ints.get? j = some off ∧ 0 ≤ rd - (ref - off)
          ∧ s = j * 1000 + (rd - (ref - off)).toNat)
    ∧ (∀ (rows : List (Option Int)) (ints : List Nat) (ref : Int),
        List.Sorted scoreRel (scoredPoints rows ints ref)
        ∧ (scoredPoints rows ints ref).Perm (pointsAux ints ref rows 0)
        ∧ ((scoredPoints rows ints ref).map Prod.snd).Nodup
        ∧ ∀ n, consumedSlots rows ints ref n = (scoredPoints rows ints ref).take n)
    ∧ (∀ (rows : List (Option Int)) (ints : List Nat) (ref : Int),
        noEligible rows ints ref = true
          ↔ ∀ j d, rows.get? j = some d → scoreRow ints ref d = ⊤)
    ∧ (∀ ref : Int,
        scoreRow (new9gemIntervals [10, 20]) ref (some (ref - 10))
          < scoreRow (new9gemIntervals [10, 20]) ref (some (ref - 15))) := by
  refine ⟨fun ints ref => rfl, ?_, ?_, ?_, ?_, ?_, ?_⟩
  · intro ints ref rd j off hget hmatch
    have hx : (tierScores ref rd ints 0).get? j
        = some (if 0 ≤ rd - (ref - off)
            then (((0 + j) * 1000 + (rd - (ref - off)).toNat : Nat) : WithTop Nat)
            else ⊤) := by
      rw [tierScores_get? ref rd ints 0 j, hget]
      rfl
    rw [if_pos hmatch, Nat.zero_add] at hx
    have hmem := List.get?_mem hx
    have hle := foldl_min_le (tierScores ref rd ints 0) ⊤ _ hmem
    have hrw : scoreRow ints ref (some rd) = (tierScores ref rd ints 0).foldl min ⊤ :=
      scoreAux_eq_foldl ref rd ints 0 ⊤
    rw [hrw]
    exact hle
  · intro ints ref rd
    have hrw : scoreRow ints ref (some rd) = (tierScores ref rd ints 0).foldl min ⊤ :=
      scoreAux_eq_foldl ref rd ints 0 ⊤
    rw [hrw, foldl_min_eq_top_iff]
    constructor
    · rintro ⟨-, hall⟩ j off hget
      have hx : (tierScores ref rd ints 0).get? j
          = some (if 0 ≤ rd - (ref - off)
              then (((0 + j) * 1000 + (rd - (ref - off)).toNat : Nat) : WithTop Nat)
              else ⊤) := by
        rw [tierScores_get? ref rd ints 0 j, hget]
        rfl
      have htop := hall _ (List.get?_mem hx)
      by_cases hm : (0 : Int) ≤ rd - (ref - off)
      · rw [if_pos hm] at htop
        exact absurd htop (WithTop.coe_ne_top)
      · omega
    · intro hall
      refine ⟨rfl, fun x hx => ?_⟩
      obtain ⟨j, hj⟩ := List.get?_of_mem hx
      rw [tierScores_get? ref rd ints 0 j] at hj
      cases hget : ints.get? j with
      | none =>
        rw [hget] at hj
        exact absurd hj (by simp)
      | some off =>
        rw [hget, Option.map_some'] at hj
        have hj2 := Option.some.inj hj
        have hneg : ¬ (0 : Int) ≤ rd - (ref - off) := by
          have := hall j off hget
          omega
        rw [if_neg hneg] at hj2
        exact hj2.symm
  · intro ints ref rd s hs
    have hrw : scoreRow ints ref (some rd) = (tierScores ref rd ints 0).foldl min ⊤ :=
      scoreAux_eq_foldl ref rd ints 0 ⊤
    rw [hrw] at hs
    rcases foldl_min_cases (tierScores ref rd ints 0) ⊤ with hc | hc
    · rw [hs] at hc
      exact absurd hc (WithTop.coe_ne_top)
    · rw [hs] at hc
      obtain ⟨j, hj⟩ := List.get?_of_mem hc
      rw [tierScores_get? ref rd ints 0 j] at hj
      cases hget : ints.get? j with
      | none =>
        rw [hget] at hj
        exact absurd hj (by simp)
      | some off =>
        rw [hget, Option.map_some'] at hj
        have hj2 := Option.some.inj hj
        by_cases hm : (0 : Int) ≤ rd - (ref - off)
        · rw [if_pos hm, Nat.zero_add] at hj2
          exact ⟨j, off, hget, hm, (WithTop.coe_inj.mp hj2).symm⟩
        · rw [if_neg hm] at hj2
          exact absurd hj2.symm (WithTop.coe_ne_top)
  · intro rows ints ref
    refine ⟨List.sorted_insertionSort scoreRel (pointsAux ints ref rows 0),
      List.perm_insertionSort scoreRel (pointsAux ints ref rows 0), ?_, fun n => rfl⟩
    have hperm := (List.perm_insertionSort scoreRel (pointsAux ints ref rows 0)).map Prod.snd
    show (List.map Prod.snd (List.insertionSort scoreRel (pointsAux ints ref rows 0))).Nodup
    rw [hperm.nodup_iff, pointsAux_map_snd]
    exact List.nodup_range' 0 rows.length
  · intro rows ints ref
    unfold noEligible
    cases hsp : scoredPoints rows ints ref with
    | nil =>
      constructor
      · intro _ j d hget
        have hlen := (List.perm_insertionSort scoreRel (pointsAux ints ref rows 0)).length_eq
        have hsp2 : List.insertionSort scoreRel (pointsAux ints ref rows 0) = [] := hsp
        rw [hsp2] at hlen
        have hmem : (scoreRow ints ref d, 0 + j) ∈ pointsAux ints ref rows 0 :=
          (pointsAux_mem ints ref rows 0 _).mpr ⟨j, d, hget, rfl⟩
        have hpos := List.length_pos.mpr (List.ne_nil_of_mem hmem)
        simp only [List.length_nil] at hlen
        omega
      · intro _
        rfl
    | cons p ps =>
      constructor
      · intro htop j d hget
        have hp : p.1 = ⊤ := of_decide_eq_true htop
        have hmem : (scoreRow ints ref d, 0 + j) ∈ pointsAux ints ref rows 0 :=
          (pointsAux_mem ints ref rows 0 _).mpr ⟨j, d, hget, rfl⟩
        have hmem2 : (scoreRow ints ref d, 0 + j) ∈ scoredPoints rows ints ref :=
          (List.perm_insertionSort scoreRel (pointsAux ints ref rows 0)).symm.subset hmem
        rw [hsp] at hmem2
        have hsorted : List.Sorted scoreRel (p :: ps) := by
          have := List.sorted_insertionSort scoreRel (pointsAux ints ref rows 0)
          have hsp2 : List.insertionSort scoreRel (pointsAux ints ref rows 0) = p :: ps := hsp
          rw [hsp2] at this
          exact this
        rcases List.mem_cons.mp hmem2 with heq | hmem3
        · rw [← heq] at hp
          exact hp
        · have hle : scoreRel p (scoreRow ints ref d, 0 + j) :=
            (List.sorted_cons.mp hsorted).1 _ hmem3
          have hle2 : p.1 ≤ scoreRow ints ref d := hle
          rw [hp] at hle2
          exact top_le_iff.mp hle2
      · intro hall
        have hmem : p ∈ scoredPoints rows ints ref := by
          rw [hsp]
          exact List.mem_cons_self p ps
        have hmem2 : p ∈ pointsAux ints ref rows 0 :=
          (List.perm_insertionSort scoreRel (pointsAux ints ref rows 0)).subset hmem
        obtain ⟨j, d, hget, rfl⟩ := (pointsAux_mem ints ref rows 0 p).mp hmem2
        exact decide_eq_true (hall j d hget)
  · intro ref
    have hI : new9gemIntervals [10, 20] = [10, 20] := by decide
    rw [hI]
    show scoreAux ref (ref - 10) [10, 20] 0 ⊤ < scoreAux ref (ref - 15) [10, 20] 0 ⊤
    have e1 : ref - 10 - (ref - ((10 : Nat) : Int)) = 0 := by push_cast; ring
    have e2 : ref - 10 - (ref - ((20 : Nat) : Int)) = 10 := by push_cast; ring
    have e3 : ref - 15 - (ref - ((10 : Nat) : Int)) = -5 := by push_cast; ring
    have e4 : ref - 15 - (ref - ((20 : Nat) : Int)) = 5 := by push_cast; ring
    simp only [scoreAux_cons]
    rw [e1, e2, e3, e4]
    simp only [scoreAux]
    decide

/-- Witness for C3 at concrete inputs: with offsets [10, 20] and
reference day 100, a row dated day 95 scores at most 5 against tier 0
(target day 90). -/
theorem c3_multi_tier_scored_policy_witness :
    scoreRow [10, 20] 100 (some 95) ≤ ((5 : Nat) : WithTop Nat) :=
  le_trans
    (c3_multi_tier_scored_policy.2.1 [10, 20] 100 95 0 10 rfl (by decide))
    (le_of_eq (by decide))

theorem assemble_nil {α : Type} : ∀ (l : List α), assemble l [] = l := by
  intro l
  induction l with
  | nil => rfl
  | cons a t ih =>
    show blockAt [] ++ a :: assemble t (shiftDown []) = a :: t
    rw [show shiftDown ([] : List (Nat × α)) = [] from rfl, ih]
    rfl

theorem blockAt_bump_zero {α : Type} : ∀ (cs : List (Nat × α)),
    blockAt (bumpTargets 0 cs) = [] := by
  intro cs
  induction cs with
  | nil => rfl
  | cons pc rest ih =>
    simp only [bumpTargets, List.map_cons, Nat.zero_le, if_true] at *
    simp only [blockAt, List.filter_cons] at *
    simp only [show ((pc.1 + 1 == 0) = false) from by simp, Bool.false_eq_true, if_false]
    exact ih

theorem shiftDown_bump_zero {α : Type} : ∀ (cs : List (Nat × α)),
    shiftDown (bumpTargets 0 cs) = cs := by
  intro cs
  induction cs with
  | nil => rfl
  | cons pc rest ih =>
    simp only [bumpTargets, List.map_cons, Nat.zero_le, if_true] at *
    simp only [shiftDown, List.filter_cons] at *
    simp only [show ((pc.1 + 1 != 0) = true) from by simp, if_true, List.map_cons]
    rw [show pc.1 + 1 - 1 = pc.1 from by omega]
    rw [ih]

theorem blockAt_bump_succ {α : Type} (p : Nat) (cs : List (Nat × α)) :
    blockAt (bumpTargets (p + 1) cs) = blockAt cs := by
  unfold blockAt bumpTargets
  rw [List.filter_map]
  have hpred : List.filter ((fun pc => pc.1 == 0) ∘ fun pc =>
      if p + 1 ≤ pc.1 then (pc.1 + 1, pc.2) else pc) cs
      = List.filter (fun pc => pc.1 == 0) cs := by
    apply List.filter_congr
    intro pc _
    rcases pc with ⟨t, x⟩
    by_cases hb : p + 1 ≤ t
    · have h2 : t ≠ 0 := by omega
      simp [Function.comp, hb, h2]
    · simp [Function.comp, hb]
  rw [hpred, List.map_map]
  apply List.map_congr_left
  intro pc _
  rcases pc with ⟨t, x⟩
  by_cases hb : p + 1 ≤ t
  · simp [Function.comp, hb]
  · simp [Function.comp, hb]

theorem shiftDown_bump_succ {α : Type} (p : Nat) (cs : List (Nat × α)) :
    shiftDown (bumpTargets (p + 1) cs) = bumpTargets p (shiftDown cs) := by
  unfold shiftDown bumpTargets
  rw [List.filter_map]
  have hpred : List.filter ((fun pc => pc.1 != 0) ∘ fun pc =>
      if p + 1 ≤ pc.1 then (pc.1 + 1, pc.2) else pc) cs
      = List.filter (fun pc => pc.1 != 0) cs := by
    apply List.filter_congr
    intro pc _
    rcases pc with ⟨t, x⟩
    by_cases hb : p + 1 ≤ t
    · have h2 : t ≠ 0 := by omega
      simp [Function.comp, hb, h2]
    · simp [Function.comp, hb]
  rw [hpred, List.map_map, List.map_map]
  apply List.map_congr_left
  intro pc hpc
  have ht : pc.1 ≠ 0 := by simpa using (List.of_mem_filter hpc)
  rcases pc with ⟨t, x⟩
  by_cases hb : p + 1 ≤ t
  · have hb2 : p ≤ t - 1 := by omega
    simp [Function.comp, hb, hb2, show t - 1 + 1 = t from by omega]
  · have hb2 : ¬ p ≤ t - 1 := by
      intro hc
      have : t ≠ 0 := ht
      omega
    simp [Function.comp, hb, hb2]

theorem blockAt_cons_zero {α : Type} (c : α) (rest : List (Nat × α)) :
    blockAt ((0, c) :: rest) = c :: blockAt rest := by
  simp [blockAt, List.filter_cons]

theorem blockAt_cons_succ {α : Type} (t : Nat) (c : α) (rest : List (Nat × α)) :
    blockAt ((t + 1, c) :: rest) = blockAt rest := by
  simp [blockAt, List.filter_cons]

theorem shiftDown_cons_zero {α : Type} (c : α) (rest : List (Nat × α)) :
    shiftDown ((0, c) :: rest) = shiftDown rest := by
  simp [shiftDown, List.filter_cons]

theorem shiftDown_cons_succ {α : Type} (t : Nat) (c : α) (rest : List (Nat × α)) :
    shiftDown ((t + 1, c) :: rest) = (t, c) :: shiftDown rest := by
  simp [shiftDown, List.filter_cons]

theorem blockAt_append {α : Type} (xs ys : List (Nat × α)) :
    blockAt (xs ++ ys) = blockAt xs ++ blockAt ys := by
  simp [blockAt, List.filter_append]

theorem shiftDown_append {α : Type} (xs ys : List (Nat × α)) :
    shiftDown (xs ++ ys) = shiftDown xs ++ shiftDown ys := by
  simp [shiftDown, List.filter_append]

theorem shiftDown_eq_nil_of_all_zero {α : Type} (cs : List (Nat × α))
    (h : ∀ q ∈ cs, q.1 = 0) : shiftDown cs = [] := by
  unfold shiftDown
  have : cs.filter (fun pc => pc.1 != 0) = [] := by
    rw [List.filter_eq_nil]
    intro q hq
    simp [h q hq]
  rw [this]
  rfl

theorem blockAt_eq_map_of_all_zero {α : Type} (cs : List (Nat × α))
    (h : ∀ q ∈ cs, q.1 = 0) : blockAt cs = cs.map Prod.snd := by
  unfold blockAt
  have : cs.filter (fun pc => pc.1 == 0) = cs := by
    rw [List.filter_eq_self]
    intro q hq
    simp [h q hq]
  rw [this]

theorem shiftDown_targets_le {α : Type} {cs : List (Nat × α)} {m : Nat}
    (h : ∀ q ∈ cs, q.1 ≤ m + 1) : ∀ q ∈ shiftDown cs, q.1 ≤ m := by
  intro q hq
  unfold shiftDown at hq
  rw [List.mem_map] at hq
  obtain ⟨q0, hq0, rfl⟩ := hq
  have h1 := h q0 (List.mem_of_mem_filter hq0)
  omega

theorem shiftDown_targets_lt {α : Type} {cs : List (Nat × α)} {m : Nat}
    (h : ∀ q ∈ cs, q.1 < m + 1) : ∀ q ∈ shiftDown cs, q.1 < m := by
  intro q hq
  unfold shiftDown at hq
  rw [List.mem_map] at hq
  obtain ⟨q0, hq0, rfl⟩ := hq
  have h1 := h q0 (List.mem_of_mem_filter hq0)
  have h2 : q0.1 ≠ 0 := by simpa using List.of_mem_filter hq0
  omega

theorem assemble_insertIdx_bump {α : Type} : ∀ (l : List α) (p : Nat) (c : α)
    (rest : List (Nat × α)), p ≤ l.length →
    assemble (l.insertIdx p c) (bumpTargets p rest) = assemble l ((p, c) :: rest) := by
  intro l
  induction l with
  | nil =>
    intro p c rest hp
    have hp0 : p = 0 := by simpa using hp
    subst hp0
    rw [List.insertIdx_zero]
    show blockAt (bumpTargets 0 rest) ++ c :: assemble [] (shiftDown (bumpTargets 0 rest))
        = blockAt ((0, c) :: rest)
    rw [blockAt_bump_zero, shiftDown_bump_zero, blockAt_cons_zero, List.nil_append]
    rfl
  | cons a l ih =>
    intro p c rest hp
    cases p with
    | zero =>
      rw [List.insertIdx_zero]
      show blockAt (bumpTargets 0 rest)
          ++ c :: assemble (a :: l) (shiftDown (bumpTargets 0 rest))
        = blockAt ((0, c) :: rest) ++ a :: assemble l (shiftDown ((0, c) :: rest))
      rw [blockAt_bump_zero, shiftDown_bump_zero, blockAt_cons_zero, shiftDown_cons_zero,
        List.nil_append]
      rfl
    | succ n =>
      rw [List.insertIdx_succ_cons]
      show blockAt (bumpTargets (n + 1) rest)
          ++ a :: assemble (l.insertIdx n c) (shiftDown (bumpTargets (n + 1) rest))
        = blockAt ((n + 1, c) :: rest) ++ a :: assemble l (shiftDown ((n + 1, c) :: rest))
      rw [blockAt_bump_succ, shiftDown_bump_succ, blockAt_cons_succ, shiftDown_cons_succ]
      rw [ih n c (shiftDown rest) (by simpa using hp)]

theorem bumpTargets_targets_le {α : Type} {cs : List (Nat × α)} {p m : Nat}
    (h : ∀ q ∈ cs, q.1 ≤ m) : ∀ q ∈ bumpTargets p cs, q.1 ≤ m + 1 := by
  intro q hq
  unfold bumpTargets at hq
  rw [List.mem_map] at hq
  obtain ⟨q0, hq0, rfl⟩ := hq
  have h1 := h q0 hq0
  by_cases hb : p ≤ q0.1
  · simp only [hb, if_true]
    omega
  · simp only [hb, if_false]
    omega

theorem liveInsertBump_eq_assemble_len {α : Type} : ∀ (n : Nat) (cs : List (Nat × α))
    (l : List α), cs.length = n → (∀ pc ∈ cs, pc.1 ≤ l.length) →
    liveInsertBump l cs = assemble l cs := by
  intro n
  induction n with
  | zero =>
    intro cs l hlen _
    have hnil : cs = [] := List.length_eq_zero.mp hlen
    subst hnil
    simp only [liveInsertBump]
    exact (assemble_nil l).symm
  | succ n ih =>
    intro cs l hlen hb
    cases cs with
    | nil => simp at hlen
    | cons pc rest =>
      rcases pc with ⟨p, c⟩
      have hp : p ≤ l.length := hb (p, c) (List.mem_cons_self _ _)
      simp only [liveInsertBump]
      rw [ih (bumpTargets p rest) (l.insertIdx p c) ?len ?bounds]
      · exact assemble_insertIdx_bump l p c rest hp
      case len =>
        unfold bumpTargets
        rw [List.length_map]
        simpa using hlen
      case bounds =>
        intro q hq
        have h1 := bumpTargets_targets_le
          (fun q2 hq2 => hb q2 (List.mem_cons_of_mem _ hq2)) q hq
        have h2 : (l.insertIdx p c).length = l.length + 1 := List.length_insertIdx p l hp
        omega

theorem liveInsertBump_eq_assemble {α : Type} (cs : List (Nat × α)) (l : List α)
    (hb : ∀ pc ∈ cs, pc.1 ≤ l.length) : liveInsertBump l cs = assemble l cs :=
  liveInsertBump_eq_assemble_len cs.length cs l rfl hb

theorem liveInsertOffsets_eq_bump {α : Type} : ∀ (cs : List (Nat × α)) (l : List α)
    (offs : Nat → Nat), Monotone offs →
    liveInsertOffsets l offs cs
      = liveInsertBump l (cs.map (fun pc => (pc.1 + offs pc.1, pc.2))) := by
  intro cs
  induction cs with
  | nil =>
    intro l offs _
    simp only [List.map_nil, liveInsertOffsets, liveInsertBump]
  | cons pc rest ih =>
    intro l offs hmono
    rcases pc with ⟨p, c⟩
    show liveInsertOffsets (l.insertIdx (p + offs p) c)
        (fun i => if p ≤ i then offs i + 1 else offs i) rest
      = liveInsertBump l (((p, c) :: rest).map (fun pc => (pc.1 + offs pc.1, pc.2)))
    rw [List.map_cons]
    simp only [liveInsertBump]
    have hmono2 : Monotone (fun i => if p ≤ i then offs i + 1 else offs i) := by
      intro i j hij
      by_cases hpi : p ≤ i
      · have hpj : p ≤ j := le_trans hpi hij
        simp only [hpi, hpj, if_true]
        have := hmono hij
        omega
      · by_cases hpj : p ≤ j
        · simp only [hpi, hpj, if_true, if_false]
          have := hmono hij
          omega
        · simp only [hpi, hpj, if_false]
          exact hmono hij
    rw [ih (l.insertIdx (p + offs p) c) _ hmono2]
    congr 1
    unfold bumpTargets
    rw [List.map_map]
    apply List.map_congr_left
    intro q _
    rcases q with ⟨t, x⟩
    show (t + (if p ≤ t then offs t + 1 else offs t), x)
      = if p + offs p ≤ t + offs t then (t + offs t + 1, x) else (t + offs t, x)
    by_cases hpt : p ≤ t
    · have hle : p + offs p ≤ t + offs t := Nat.add_le_add hpt (hmono hpt)
      rw [if_pos hpt, if_pos hle, show t + (offs t + 1) = t + offs t + 1 from by omega]
    · have h2 : ¬ (p + offs p ≤ t + offs t) := by
        have h3 : t < p := Nat.lt_of_not_le hpt
        have h4 : offs t ≤ offs p := hmono (le_of_lt h3)
        omega
      rw [if_neg hpt, if_neg h2]

theorem assemble_insertIdx_append {α : Type} : ∀ (l : List α) (p : Nat) (c : α)
    (cs : List (Nat × α)), p ≤ l.length → (∀ q ∈ cs, q.1 ≤ p) →
    assemble (l.insertIdx p c) cs = assemble l (cs ++ [(p, c)]) := by
  intro l
  induction l with
  | nil =>
    intro p c cs hp hcs
    have hp0 : p = 0 := by simpa using hp
    subst hp0
    have hall : ∀ q ∈ cs, q.1 = 0 := fun q hq => Nat.le_zero.mp (hcs q hq)
    rw [List.insertIdx_zero]
    show blockAt cs ++ c :: assemble [] (shiftDown cs) = blockAt (cs ++ [(0, c)])
    rw [shiftDown_eq_nil_of_all_zero cs hall, blockAt_append, blockAt_cons_zero]
    rfl
  | cons a l ih =>
    intro p c cs hp hcs
    cases p with
    | zero =>
      have hall : ∀ q ∈ cs, q.1 = 0 := fun q hq => Nat.le_zero.mp (hcs q hq)
      rw [List.insertIdx_zero]
      show blockAt cs ++ c :: assemble (a :: l) (shiftDown cs)
        = blockAt (cs ++ [(0, c)]) ++ a :: assemble l (shiftDown (cs ++ [(0, c)]))
      rw [shiftDown_eq_nil_of_all_zero cs hall, blockAt_append, blockAt_cons_zero,
        shiftDown_append, shiftDown_eq_nil_of_all_zero cs hall, shiftDown_cons_zero]
      show blockAt cs ++ c :: assemble (a :: l) []
        = (blockAt cs ++ c :: blockAt []) ++ a :: assemble l (shiftDown [])
      rw [assemble_nil]
      show blockAt cs ++ c :: a :: l
        = (blockAt cs ++ c :: blockAt []) ++ a :: assemble l (shiftDown [])
      rw [show shiftDown ([] : List (Nat × α)) = [] from rfl, assemble_nil]
      simp [blockAt]
    | succ n =>
      rw [List.insertIdx_succ_cons]
      show blockAt cs ++ a :: assemble (l.insertIdx n c) (shiftDown cs)
        = blockAt (cs ++ [(n + 1, c)]) ++ a :: assemble l (shiftDown (cs ++ [(n + 1, c)]))
      rw [blockAt_append, blockAt_cons_succ, shiftDown_append, shiftDown_cons_succ]
      rw [ih n c (shiftDown cs) (by simpa using hp)
        (shiftDown_targets_le (fun q hq => hcs q hq))]
      show blockAt cs ++ a :: assemble l (shiftDown cs ++ [(n, c)])
        = (blockAt cs ++ blockAt []) ++ a :: assemble l (shiftDown cs ++ (n, c) :: shiftDown [])
      simp [blockAt, shiftDown]

theorem foldl_insertIdx_sorted_eq_assemble {α : Type} : ∀ (ordered : List (Nat × α))
    (l : List α), List.Sorted descRel ordered → (∀ q ∈ ordered, q.1 ≤ l.length) →
    ordered.foldl (fun acc pc => acc.insertIdx pc.1 pc.2) l = assemble l ordered.reverse := by
  intro ordered
  induction ordered with
  | nil => intro l _ _; exact (assemble_nil l).symm
  | cons pc rest ih =>
    intro l hsort hb
    rcases pc with ⟨p, c⟩
    rw [List.foldl_cons]
    have hp : p ≤ l.length := hb (p, c) (List.mem_cons_self _ _)
    have hsort2 := (List.sorted_cons.mp hsort).2
    have hrestb : ∀ q ∈ rest, q.1 ≤ (l.insertIdx p c).length := by
      intro q hq
      have h1 := hb q (List.mem_cons_of_mem _ hq)
      have h2 := List.length_le_length_insertIdx l c p
      omega
    rw [ih (l.insertIdx p c) hsort2 hrestb, List.reverse_cons]
    exact assemble_insertIdx_append l p c rest.reverse hp
      (fun q hq => (List.sorted_cons.mp hsort).1 q (List.mem_reverse.mp hq))

theorem filter_orderedInsert_key {α : Type} (k : Nat) (x : Nat × α) :
    ∀ (s : List (Nat × α)),
    (List.orderedInsert descRel x s).filter (fun pc => pc.1 == k)
      = if x.1 == k then x :: s.filter (fun pc => pc.1 == k)
        else s.filter (fun pc => pc.1 == k) := by
  intro s
  induction s with
  | nil =>
    rw [List.orderedInsert, List.filter_cons]
  | cons b t ih =>
    rw [List.orderedInsert]
    by_cases hxb : descRel x b
    · rw [if_pos hxb, List.filter_cons, List.filter_cons]
    · rw [if_neg hxb, List.filter_cons, ih, List.filter_cons]
      cases hxk : (x.1 == k) with
      | true =>
        have hbk : (b.1 == k) = false := by
          have h1 : ¬ b.1 ≤ x.1 := hxb
          have h2 : x.1 = k := by simpa using hxk
          simp only [beq_eq_false_iff_ne, ne_eq]
          omega
        simp [hbk]
      | false => simp [hxk]

theorem filter_insertionSort_key {α : Type} (k : Nat) : ∀ (cs : List (Nat × α)),
    (List.insertionSort descRel cs).filter (fun pc => pc.1 == k)
      = cs.filter (fun pc => pc.1 == k) := by
  intro cs
  induction cs with
  | nil => rfl
  | cons x t ih =>
    rw [List.insertionSort, filter_orderedInsert_key k x, ih, List.filter_cons]

theorem shiftDown_filter_key {α : Type} (k : Nat) (cs : List (Nat × α)) :
    (shiftDown cs).filter (fun pc => pc.1 == k)
      = (cs.filter (fun pc => pc.1 == k + 1)).map (fun pc => (pc.1 - 1, pc.2)) := by
  unfold shiftDown
  rw [List.filter_map, List.filter_filter]
  congr 1
  apply List.filter_congr
  intro q _
  rcases q with ⟨t, x⟩
  show (((t, x).1 - 1 == k) && ((t, x).1 != 0)) = ((t, x).1 == k + 1)
  cases t with
  | zero => simp
  | succ m =>
    simp only [Nat.succ_sub_one]
    by_cases hm : m = k
    · subst hm
      simp
    · have h2 : m + 1 ≠ k + 1 := by omega
      simp [hm, h2]

theorem assemble_congr_filter {α : Type} : ∀ (l : List α) (cs cs2 : List (Nat × α)),
    (∀ k, cs.filter (fun pc => pc.1 == k) = cs2.filter (fun pc => pc.1 == k)) →
    assemble l cs = assemble l cs2 := by
  intro l
  induction l with
  | nil =>
    intro cs cs2 h
    show blockAt cs = blockAt cs2
    unfold blockAt
    rw [h 0]
  | cons a l ih =>
    intro cs cs2 h
    show blockAt cs ++ a :: assemble l (shiftDown cs)
      = blockAt cs2 ++ a :: assemble l (shiftDown cs2)
    have hb : blockAt cs = blockAt cs2 := by
      unfold blockAt
      rw [h 0]
    have hsh : ∀ k, (shiftDown cs).filter (fun pc => pc.1 == k)
        = (shiftDown cs2).filter (fun pc => pc.1 == k) := by
      intro k
      rw [shiftDown_filter_key, shiftDown_filter_key, h (k + 1)]
    rw [hb, ih (shiftDown cs) (shiftDown cs2) hsh]

theorem snapshotOrder_reverse_filter {α : Type} (k : Nat) (cs : List (Nat × α)) :
    ((snapshotOrder cs).reverse).filter (fun pc => pc.1 == k)
      = cs.filter (fun pc => pc.1 == k) := by
  unfold snapshotOrder
  rw [List.filter_reverse, filter_insertionSort_key, List.filter_reverse,
    List.reverse_reverse]

theorem snapshotHighestFirst_eq_assemble {α : Type} (l : List α) (cs : List (Nat × α))
    (hb : ∀ q ∈ cs, q.1 ≤ l.length) : snapshotHighestFirst l cs = assemble l cs := by
  unfold snapshotHighestFirst
  rw [foldl_insertIdx_sorted_eq_assemble (snapshotOrder cs) l
    (List.sorted_insertionSort descRel cs.reverse) ?bounds]
  · exact assemble_congr_filter l _ cs (fun k => snapshotOrder_reverse_filter k cs)
  case bounds =>
    intro q hq
    have h1 : q ∈ cs.reverse :=
      (List.perm_insertionSort descRel cs.reverse).subset hq
    exact hb q (List.mem_reverse.mp h1)

/-- C6: applying a batch through the live offsets bookkeeping of
new9gem.py (or, equivalently, the index-bump bookkeeping of new5high.py
and new6up.py) produces exactly the ledger obtained by computing every
target position against the pre-batch snapshot and inserting
highest-index-first, the processing order of the snapshot strategy being
a permutation of the batch. -/
theorem c6_batch_index_stability {α : Type} (l : List α) (cs : List (Nat × α))
    (hb : ∀ pc ∈ cs, pc.1 ≤ l.length) :
    liveInsertOffsets l (fun _ => 0) cs = snapshotHighestFirst l cs
    ∧ liveInsertBump l cs = snapshotHighestFirst l cs
    ∧ (snapshotOrder cs).Perm cs := by
  have h0 : (cs.map (fun pc => (pc.1 + (fun _ : Nat => (0 : Nat)) pc.1, pc.2))) = cs := by
    have h1 : ∀ pc ∈ cs, (pc.1 + (fun _ : Nat => (0 : Nat)) pc.1, pc.2) = pc := by
      intro pc _
      rcases pc with ⟨t, x⟩
      simp
    rw [List.map_congr_left h1]
    simp
  have hlive : liveInsertBump l cs = assemble l cs := liveInsertBump_eq_assemble cs l hb
  have hsnap := snapshotHighestFirst_eq_assemble l cs hb
  refine ⟨?_, ?_, ?_⟩
  · rw [liveInsertOffsets_eq_bump cs l _ monotone_const, h0, hlive, hsnap]
  · rw [hlive, hsnap]
  · exact (List.perm_insertionSort descRel cs.reverse).trans (List.reverse_perm cs)

/-- Witness for C6 at a concrete batch with a repeated target. -/
theorem c6_batch_index_stability_witness :
    liveInsertOffsets [10, 20, 30] (fun _ => 0) [(1, 7), (1, 8), (2, 9)]
        = snapshotHighestFirst [10, 20, 30] [(1, 7), (1, 8), (2, 9)]
    ∧ liveInsertBump [10, 20, 30] [(1, 7), (1, 8), (2, 9)]
        = snapshotHighestFirst [10, 20, 30] [(1, 7), (1, 8), (2, 9)]
    ∧ (snapshotOrder [(1, 7), (1, 8), (2, 9)]).Perm [(1, 7), (1, 8), (2, 9)] :=
  c6_batch_index_stability [10, 20, 30] [(1, 7), (1, 8), (2, 9)] (by decide)

theorem assemble_getLast? {α : Type} : ∀ (l : List α) (cs : List (Nat × α)),
    (∀ q ∈ cs, q.1 < l.length) → l ≠ [] →
    (assemble l cs).getLast? = l.getLast? := by
  intro l
  induction l with
  | nil => intro cs _ hne; exact absurd rfl hne
  | cons a l ih =>
    intro cs hb hne
    cases l with
    | nil =>
      have hall : ∀ q ∈ cs, q.1 = 0 := by
        intro q hq
        have := hb q hq
        simp at this
        omega
      show (blockAt cs ++ a :: assemble [] (shiftDown cs)).getLast? = [a].getLast?
      rw [shiftDown_eq_nil_of_all_zero cs hall]
      exact List.getLast?_append_of_ne_nil (blockAt cs) (by simp)
    | cons b l2 =>
      show (blockAt cs ++ a :: assemble (b :: l2) (shiftDown cs)).getLast?
        = (a :: b :: l2).getLast?
      have hb2 : ∀ q ∈ shiftDown cs, q.1 < (b :: l2).length := by
        have hb3 : ∀ q ∈ cs, q.1 < (b :: l2).length + 1 := by
          intro q hq
          have := hb q hq
          simpa using this
        exact shiftDown_targets_lt hb3
      have hih := ih (shiftDown cs) hb2 (by simp)
      rw [List.getLast?_append_of_ne_nil (blockAt cs) (by simp)]
      cases hX : assemble (b :: l2) (shiftDown cs) with
      | nil =>
        rw [hX] at hih
        obtain ⟨z, hz⟩ := getLast?_cons_some b l2
        rw [hz] at hih
        exact absurd hih.symm (by simp)
      | cons y ys =>
        rw [hX] at hih
        rw [show (a :: b :: l2).getLast? = (b :: l2).getLast? from List.getLast?_cons_cons]
        exact hih

/-- C10: under the scored policy bookkeeping of new9gem.py, every target
is the position of an original snapshot row and the candidate lands
immediately before it, so after the whole batch the original last row is
still the last row; in particular no inserted row is ever last, and after
every inserted row some original row follows. -/
theorem c10_inserted_never_last {α β : Type} (l : List α) (cs : List (Nat × β))
    (hb : ∀ pc ∈ cs, pc.1 < l.length) (hne : l ≠ []) :
    (taggedLive l cs).getLast? = (l.getLast?).map Sum.inl
    ∧ ∀ (i : Nat) (b : β), (taggedLive l cs).get? i = some (Sum.inr b) →
        i + 1 < (taggedLive l cs).length
        ∧ ∃ j a, i < j ∧ (taggedLive l cs).get? j = some (Sum.inl a) := by
  have hb2 : ∀ pc ∈ (cs.map (fun pc => (pc.1, (Sum.inr pc.2 : α ⊕ β)))),
      pc.1 < (l.map (Sum.inl : α → α ⊕ β)).length := by
    intro pc hpc
    rw [List.mem_map] at hpc
    obtain ⟨q, hq, rfl⟩ := hpc
    rw [List.length_map]
    exact hb q hq
  have hres : taggedLive l cs
      = assemble (l.map Sum.inl) (cs.map (fun pc => (pc.1, (Sum.inr pc.2 : α ⊕ β)))) := by
    unfold taggedLive
    rw [liveInsertOffsets_eq_bump _ _ _ monotone_const]
    have h1 : ∀ pc ∈ ((cs.map (fun pc => (pc.1, (Sum.inr pc.2 : α ⊕ β))))),
        (pc.1 + (fun _ : Nat => (0 : Nat)) pc.1, pc.2) = pc := by
      intro pc _
      rcases pc with ⟨t, x⟩
      simp
    have h0 : ((cs.map (fun pc => (pc.1, (Sum.inr pc.2 : α ⊕ β)))).map
        (fun pc => (pc.1 + (fun _ : Nat => (0 : Nat)) pc.1, pc.2)))
        = cs.map (fun pc => (pc.1, (Sum.inr pc.2 : α ⊕ β))) := by
      rw [List.map_congr_left h1]
      simp
    rw [h0]
    exact liveInsertBump_eq_assemble _ _ (fun q hq => le_of_lt (hb2 q hq))
  have hlast : (taggedLive l cs).getLast? = (l.getLast?).map Sum.inl := by
    rw [hres, assemble_getLast? _ _ hb2 ?mapne]
    · exact List.getLast?_map Sum.inl l
    case mapne =>
      intro h0
      rw [List.map_eq_nil] at h0
      exact hne h0
  obtain ⟨lastv, hlastv⟩ : ∃ z, l.getLast? = some z := by
    cases l with
    | nil => exact absurd rfl hne
    | cons x xs => exact getLast?_cons_some x xs
  have hlastres : (taggedLive l cs).getLast? = some (Sum.inl lastv) := by
    rw [hlast, hlastv]
    rfl
  have hgl : (taggedLive l cs).getLast? = (taggedLive l cs).get? ((taggedLive l cs).length - 1) :=
    List.getLast?_eq_get? (taggedLive l cs)
  refine ⟨hlast, ?_⟩
  intro i b hget
  have hlt : i < (taggedLive l cs).length := by
    by_contra hge
    rw [List.get?_len_le (by omega)] at hget
    exact Option.noConfusion hget
  have hne1 : i + 1 ≠ (taggedLive l cs).length := by
    intro he
    have hi : (taggedLive l cs).length - 1 = i := by omega
    rw [hgl, hi, hget] at hlastres
    rw [Option.some.injEq] at hlastres
    exact Sum.noConfusion hlastres
  have hi2 : i + 1 < (taggedLive l cs).length := by omega
  refine ⟨hi2, (taggedLive l cs).length - 1, lastv, by omega, ?_⟩
  rw [← hgl]
  exact hlastres

/-- Witness for C10 at a concrete ledger and batch: the original last row
30 stays last. -/
theorem c10_inserted_never_last_witness :
    (taggedLive [10, 20, 30] [(1, 7), (2, 8)]).getLast?
        = (([10, 20, 30] : List Nat).getLast?).map Sum.inl
    ∧ ∀ (i : Nat) (b : Nat), (taggedLive [10, 20, 30] [(1, 7), (2, 8)]).get? i
          = some (Sum.inr b) →
        i + 1 < (taggedLive [10, 20, 30] [(1, 7), (2, 8)]).length
        ∧ ∃ j a, i < j ∧ (taggedLive [10, 20, 30] [(1, 7), (2, 8)]).get? j
            = some (Sum.inl a) :=
  c10_inserted_never_last [10, 20, 30] [(1, 7), (2, 8)] (by decide) (by decide)
